import Mathlib

/-!
Verification of the hex-grid treasure-hunt route planner.

The program keeps a fixed hexagonal grid (a 2D array of tile symbols), computes
parity-dependent hex adjacency (`get_neighbors`), single-pair cheapest paths by
uniform-cost search (`ucs`), and multi-target routes by brute-force permutation
search (`find_best_treasure_path`).  A second module duplicates `ucs` with a
narrower trap check (`search.ucs` below).

Costs are IEEE floats in the program; every cost arising is a multiple of 1/2
well inside the exactly-representable range, so float arithmetic and
comparisons are exact and ℚ is a faithful model ( `none : Option ℚ` models
`float inf`, the unreachable sentinel).  Python dicts are modelled as
association lists with insert-at-front and first-match lookup, and the binary
heap as a multiset from which the lexicographically least (cost, cell) pair is
removed: heap entries for one cell always carry distinct costs, so entries are
distinct tuples and `heapq` pop order is exactly "remove the least tuple".
-/

/-- A grid coordinate (row, column); `ℤ` since candidate neighbors may be
negative before the bounds check. -/
abbrev Cell := Int × Int

/-- A cost that may be infinite: `none` models the float `inf` sentinel. -/
abbrev OCost := Option ℚ

/- ------------------------ Map definitions (map.py) ------------------------ -/

def START : String := "S"

def TREASURE : String := "T"

def BLOCKED : String := "#"

def TRAPS : List String := ["X1", "X2", "X3", "X4"]

def REWARDS : List String := ["R1", "R2"]

def EMPTY : String := ""

/-- The fixed hexagonal grid of map.py. -/
def grid : List (List String) :=
  [["", "", "", "", "", "", "", "", "", ""],
   ["S", "X2", "", "X4", "R1", "", "", "", "", ""],
   ["", "", "", "", "T", "", "X3", "R2", "#", ""],
   ["", "R1", "#", "#", "#", "X3", "", "T", "X1", "T"],
   ["#", "", "", "T", "", "", "#", "#", "", ""],
   ["", "", "X2", "", "#", "R2", "#", "", "", ""],
   ["", "", "", "", "", "", "", "", "", ""]]

/-- `ROWS = len(grid)`, as an integer bound; parameterised by the grid so the
duplicated search.py functions (which read the same global) share it. -/
def rowsI (g : List (List String)) : Int := (g.length : Int)

/-- `COLS = len(grid[0])`. -/
def colsI (g : List (List String)) : Int := ((g.headD []).length : Int)

def ROWS : Int := rowsI grid

def COLS : Int := colsI grid

/-- `grid[r][c]`; only ever consulted after the `0 <= r < ROWS` and
`0 <= c < COLS` checks, where `Int.toNat` agrees with Python indexing. -/
def tileAtG (g : List (List String)) (r c : Int) : String :=
  (g.getD r.toNat []).getD c.toNat ""

/-- map.py `get_neighbors`, over an explicit grid: parity-dependent candidate
offsets, filtered to in-bounds, non-blocked cells, in source order. -/
def get_neighborsG (g : List (List String)) (r c : Int) : List Cell :=
  let even := c % 2 == 0
  let dirs : List (Int × Int) :=
    [(-1, 0), (1, 0), (0, -1), (0, 1)] ++
      (if even then [(-1, -1), (-1, 1)] else [(1, -1), (1, 1)])
  dirs.filterMap fun d =>
    let nr := r + d.1
    let nc := c + d.2
    if 0 ≤ nr ∧ nr < rowsI g ∧ 0 ≤ nc ∧ nc < colsI g ∧ tileAtG g nr nc ≠ BLOCKED
    then some (nr, nc) else none

/-- map.py `get_neighbors` on the program's grid. -/
def get_neighbors (r c : Int) : List Cell := get_neighborsG grid r c

/-- The per-step cost of entering a cell holding `tile` (map.py, inside `ucs`):
base 1.0, doubled on any of the four trap tiles, halved on a reward tile. -/
def stepCostOf (tile : String) : ℚ :=
  let step_cost : ℚ := 1
  if tile ∈ TRAPS then step_cost * 2
  else if tile ∈ REWARDS then step_cost * (1 / 2)
  else step_cost

/-- Step cost of entering a cell of grid `g`. -/
def stepW (g : List (List String)) (x : Cell) : ℚ := stepCostOf (tileAtG g x.1 x.2)

/- ------------------------ dict / heap primitives ------------------------ -/

/-- First-match lookup in an association list; with insert-at-front this is
exactly Python dict lookup. -/
def lookupC {β : Type} : List (Cell × β) → Cell → Option β
  | [], _ => none
  | (k, v) :: rest, key => if key = k then some v else lookupC rest key

/-- Python's tuple comparison on coordinates. -/
def cellLt (p q : Cell) : Prop := p.1 < q.1 ∨ (p.1 = q.1 ∧ p.2 < q.2)

instance (p q : Cell) : Decidable (cellLt p q) := by
  unfold cellLt; exact inferInstance

/-- Strict lexicographic order on heap entries `(cost, (row, col))`, exactly
Python's tuple comparison used by `heapq`. -/
def tupLt (a b : ℚ × Cell) : Prop :=
  a.1 < b.1 ∨ (a.1 = b.1 ∧ cellLt a.2 b.2)

instance (a b : ℚ × Cell) : Decidable (tupLt a b) := by
  unfold tupLt; exact inferInstance

/-- `heapq.heappop`: remove the least entry (the leftmost one among equals)
and return it with the remaining entries. -/
def popMin : List (ℚ × Cell) → Option ((ℚ × Cell) × List (ℚ × Cell))
  | [] => none
  | x :: xs =>
    match popMin xs with
    | none => some (x, [])
    | some (m, rest) => if tupLt m x then some (m, x :: rest) else some (x, xs)

/-- The state threaded through ucs's while loop. -/
structure UState where
  open_set : List (ℚ × Cell)
  came_from : List (Cell × Cell)
  cost_so_far : List (Cell × ℚ)

/-- One iteration of ucs's `for neighbor in get_neighbors(*current)` body:
compute the step cost, and on improvement record cost and predecessor and push
the neighbor. -/
def relax (g : List (List String)) (current_cost : ℚ) (current : Cell)
    (st : UState) (neighbor : Cell) : UState :=
  let tile := tileAtG g neighbor.1 neighbor.2
  let step_cost := stepCostOf tile
  let new_cost := current_cost + step_cost
  match lookupC st.cost_so_far neighbor with
  | none =>
      ⟨(new_cost, neighbor) :: st.open_set,
       (neighbor, current) :: st.came_from,
       (neighbor, new_cost) :: st.cost_so_far⟩
  | some c =>
      if new_cost < c then
        ⟨(new_cost, neighbor) :: st.open_set,
         (neighbor, current) :: st.came_from,
         (neighbor, new_cost) :: st.cost_so_far⟩
      else st

/-- Path reconstruction (`while current in came_from`), with explicit fuel:
the source's loop is unbounded, but under the search invariant the
predecessor chain is acyclic and shorter than `came_from`, so the fuel
`came_from.length + 1` supplied at the call site never runs out. -/
def reconstruct : Nat → List (Cell × Cell) → Cell → List Cell → List Cell
  | 0, _, _, path => path.reverse
  | fuel + 1, came_from, current, path =>
    match lookupC came_from current with
    | none => path.reverse
    | some prev => reconstruct fuel came_from prev (path ++ [current])

/-- ucs's while loop, with explicit fuel; under the search invariant the
number of pops is bounded by the fuel supplied in `ucsG`, so the fuel-out
branch (returning the unreachable sentinel) is never taken. -/
def ucsLoopG (g : List (List String)) (goal : Cell) : Nat → UState → List Cell × OCost
  | 0, _ => ([], none)
  | fuel + 1, st =>
    match popMin st.open_set with
    | none => ([], none)
    | some ((current_cost, current), rest) =>
      if current = goal then
        -- the popped goal always has a recorded cost (Python indexes the dict)
        (reconstruct (st.came_from.length + 1) st.came_from current [],
         lookupC st.cost_so_far goal)
      else
        ucsLoopG g goal fuel
          ((get_neighborsG g current.1 current.2).foldl
            (relax g current_cost current) ⟨rest, st.came_from, st.cost_so_far⟩)

/-- Fuel bound for the while loop: every cell is expanded at most once and
contributes at most 6 pushes, so pops never exceed `6 * (ROWS*COLS + 1) + 1`. -/
def fuelG (g : List (List String)) : Nat :=
  6 * (g.length * (g.headD []).length + 1) + 1

/-- map.py `ucs` over an explicit grid.  The second component is the cost:
`none` models `float('inf')`. -/
def ucsG (g : List (List String)) (start goal : Cell) : List Cell × OCost :=
  ucsLoopG g goal (fuelG g) ⟨[(0, start)], [], [(start, 0)]⟩

/-- map.py `ucs` on the program's grid. -/
def ucs (start goal : Cell) : List Cell × OCost := ucsG grid start goal

/- ------------------------ itertools.permutations ------------------------ -/

/-- All ways to pick one element of a list together with the remaining
elements in order; drives the permutation enumeration below. -/
def selections {α : Type} : List α → List (α × List α)
  | [] => []
  | x :: xs => (x, xs) :: (selections xs).map fun p => (p.1, x :: p.2)

theorem selections_length {α : Type} :
    ∀ (l : List α), ∀ p ∈ selections l, p.2.length + 1 = l.length := by
  intro l
  induction l with
  | nil => intro p hp; simp [selections] at hp
  | cons x xs ih =>
    intro p hp
    simp only [selections, List.mem_cons, List.mem_map] at hp
    rcases hp with h | ⟨q, hq, h⟩
    · subst h; simp
    · have := ih q hq
      subst h
      simp only [List.length_cons]
      omega

/-- `itertools.permutations`, in its enumeration order: permutations are
emitted in lexicographic order of the positions chosen from the input. -/
def permutations {α : Type} : List α → List (List α)
  | [] => [[]]
  | x :: xs =>
    (selections (x :: xs)).attach.flatMap fun p =>
      (permutations p.1.2).map fun q => p.1.1 :: q
termination_by l => l.length
decreasing_by
  have h := selections_length (x :: xs) p.1 p.2
  simp only [List.length_cons] at h ⊢
  omega

/- ------------------- find_best_treasure_path (map.py) ------------------- -/

/-- Addition on possibly-infinite costs (`inf + x = inf`). -/
def oAdd : OCost → OCost → OCost
  | some a, some b => some (a + b)
  | _, _ => none

/-- The float `<` on possibly-infinite costs (`x < inf` iff `x` finite,
`inf < inf` is false). -/
def oLT : OCost → OCost → Bool
  | some a, some b => decide (a < b)
  | some _, none => true
  | none, _ => false

/-- The `for target in order` loop of `find_best_treasure_path`: thread the
current position, accumulated path and cost through the targets, failing
(`none`, Python's `valid = False` + `break`) as soon as a segment is empty. -/
def visitAll (g : List (List String)) :
    Cell → List Cell → List Cell → OCost → Option (Cell × List Cell × OCost)
  | current_pos, [], total_path, total_cost => some (current_pos, total_path, total_cost)
  | current_pos, target :: rest, total_path, total_cost =>
    let seg := ucsG g current_pos target
    if seg.1 = [] then none
    else visitAll g target rest (total_path ++ seg.1) (oAdd total_cost seg.2)

/-- One permutation's outcome: the target chain, then optionally the return
leg to the start; `none` when the ordering is invalid. -/
def runOrder (g : List (List String)) (start_pos : Cell) (return_to_start : Bool)
    (order : List Cell) : Option (List Cell × OCost) :=
  match visitAll g start_pos order [] (some 0) with
  | none => none
  | some (current_pos, total_path, total_cost) =>
    if return_to_start then
      let ret := ucsG g current_pos start_pos
      if ret.1 = [] then none
      else some (total_path ++ ret.1, oAdd total_cost ret.2)
    else some (total_path, total_cost)

/-- map.py `find_best_treasure_path` over an explicit grid: try every
permutation, keep the first strictly-cheaper total (`min_total_cost` starts
at `inf`, modelled by `none`). -/
def find_best_treasure_pathG (g : List (List String)) (start_pos : Cell)
    (treasures : List Cell) (return_to_start : Bool := false) : List Cell :=
  if treasures = [] then []
  else
    ((permutations treasures).foldl
      (fun best order =>
        match runOrder g start_pos return_to_start order with
        | none => best
        | some (total_path, total_cost) =>
          if oLT total_cost best.2 then (total_path, total_cost) else best)
      ([], none)).1

/-- map.py `find_best_treasure_path` on the program's grid. -/
def find_best_treasure_path (start_pos : Cell) (treasures : List Cell)
    (return_to_start : Bool := false) : List Cell :=
  find_best_treasure_pathG grid start_pos treasures return_to_start

/- ------------------------ search.py duplicate ucs ------------------------ -/

/-- search.py's step cost: the trap surcharge checks only `X1` and `X2`
(`if tile == 'X1' or tile == 'X2'`), unlike map.py's four-trap check. -/
def stepCostOfSearch (tile : String) : ℚ :=
  let step_cost : ℚ := 1
  if tile = "X1" ∨ tile = "X2" then step_cost * 2
  else if tile = "R1" ∨ tile = "R2" then step_cost * (1 / 2)
  else step_cost

/-- search.py's neighbor relaxation (identical to map.py's except for the
step-cost computation). -/
def relaxSearch (g : List (List String)) (current_cost : ℚ) (current : Cell)
    (st : UState) (neighbor : Cell) : UState :=
  let tile := tileAtG g neighbor.1 neighbor.2
  let step_cost := stepCostOfSearch tile
  let new_cost := current_cost + step_cost
  match lookupC st.cost_so_far neighbor with
  | none =>
      ⟨(new_cost, neighbor) :: st.open_set,
       (neighbor, current) :: st.came_from,
       (neighbor, new_cost) :: st.cost_so_far⟩
  | some c =>
      if new_cost < c then
        ⟨(new_cost, neighbor) :: st.open_set,
         (neighbor, current) :: st.came_from,
         (neighbor, new_cost) :: st.cost_so_far⟩
      else st

/-- search.py's ucs while loop. -/
def ucsLoopSearch (g : List (List String)) (goal : Cell) : Nat → UState → List Cell × OCost
  | 0, _ => ([], none)
  | fuel + 1, st =>
    match popMin st.open_set with
    | none => ([], none)
    | some ((current_cost, current), rest) =>
      if current = goal then
        (reconstruct (st.came_from.length + 1) st.came_from current [],
         lookupC st.cost_so_far goal)
      else
        ucsLoopSearch g goal fuel
          ((get_neighborsG g current.1 current.2).foldl
            (relaxSearch g current_cost current) ⟨rest, st.came_from, st.cost_so_far⟩)

/-- search.py `ucs` over an explicit grid (the module reads the same globals
`grid` and `get_neighbors` as map.py). -/
def ucsSearch (g : List (List String)) (start goal : Cell) : List Cell × OCost :=
  ucsLoopSearch g goal (fuelG g) ⟨[(0, start)], [], [(start, 0)]⟩

/- ------------------------ specification-side notions ------------------------ -/

/-- In-bounds predicate for a cell of grid `g`. -/
def InB (g : List (List String)) (x : Cell) : Prop :=
  0 ≤ x.1 ∧ x.1 < rowsI g ∧ 0 ≤ x.2 ∧ x.2 < colsI g

instance (g : List (List String)) (x : Cell) : Decidable (InB g x) := by
  unfold InB; exact inferInstance

/-- The candidate neighbors named by the specification: the four cardinal
cells plus the two parity-dependent diagonals. -/
def hexCandidates (r c : Int) : List Cell :=
  [(r - 1, c), (r + 1, c), (r, c - 1), (r, c + 1)] ++
    (if c % 2 == 0 then [(r - 1, c - 1), (r - 1, c + 1)]
     else [(r + 1, c - 1), (r + 1, c + 1)])

/-- A legal walk on grid `g` from `u` to `w`: the list records the cells
entered after `u` (so the start is excluded and the end included), each a
`get_neighbors` neighbor of its predecessor. -/
inductive Walk (g : List (List String)) : Cell → Cell → List Cell → Prop
  | nil (v : Cell) : Walk g v v []
  | cons {u v w : Cell} {p : List Cell} (hv : v ∈ get_neighborsG g u.1 u.2)
      (hw : Walk g v w p) : Walk g u w (v :: p)

/-- Total cost of a walk: the sum of step costs over the cells entered. -/
def walkCost (g : List (List String)) (p : List Cell) : ℚ :=
  (p.map (stepW g)).sum

/-- The in-bounds cells of a grid, as a finite set. -/
def inBFinset (g : List (List String)) : Finset Cell :=
  ((Finset.range g.length) ×ˢ (Finset.range (g.headD []).length)).image
    (fun q => ((q.1 : Int), (q.2 : Int)))

/-- All cells the search can ever enqueue: the in-bounds cells plus the
start cell itself. -/
def cellsU (g : List (List String)) (start : Cell) : Finset Cell :=
  insert start (inBFinset g)

/-- Termination measure for the ucs loop: queued entries plus six budget
units for every never-expanded cell. -/
def uVariant (g : List (List String)) (start : Cell) (st : UState)
    (popped : Finset Cell) : Nat :=
  st.open_set.length + 6 * ((cellsU g start).card - popped.card)

/-- The ucs loop invariant.  `popped` is the (ghost) set of cells already
expanded by a fresh pop; `st` the live loop state. -/
structure UcsInv (g : List (List String)) (start goal : Cell) (st : UState)
    (popped : Finset Cell) : Prop where
  keysNonneg : ∀ e ∈ st.open_set, 0 ≤ e.1
  openCells : ∀ e ∈ st.open_set, e.2 = start ∨ InB g e.2
  poppedCells : ∀ v ∈ popped, v = start ∨ InB g v
  dStart : lookupC st.cost_so_far start = some 0
  cfLink : ∀ v u, lookupC st.came_from v = some u → u ∈ popped ∧
    v ∈ get_neighborsG g u.1 u.2 ∧
    ∃ du, lookupC st.cost_so_far u = some du ∧
      lookupC st.cost_so_far v = some (du + stepW g v)
  cfNone : ∀ v d, lookupC st.cost_so_far v = some d →
    lookupC st.came_from v = none → v = start
  lenEq : st.cost_so_far.length = st.came_from.length + 1
  relaxed : ∀ u ∈ popped, ∃ du, lookupC st.cost_so_far u = some du ∧
    ∀ nb ∈ get_neighborsG g u.1 u.2, ∃ dnb, lookupC st.cost_so_far nb = some dnb ∧
      dnb ≤ du + stepW g nb
  poppedLe : ∀ u ∈ popped, ∀ du, lookupC st.cost_so_far u = some du →
    ∀ e ∈ st.open_set, du ≤ e.1
  heapSound : ∀ e ∈ st.open_set, ∃ d, lookupC st.cost_so_far e.2 = some d ∧ d ≤ e.1
  present : ∀ v d, lookupC st.cost_so_far v = some d → v ∈ popped ∨ (d, v) ∈ st.open_set
  finalized : ∀ u ∈ popped, ∀ du, lookupC st.cost_so_far u = some du →
    ∀ p, Walk g start u p → du ≤ walkCost g p
  goalNotPopped : goal ∉ popped
  startState : start ∈ popped ∨
    (popped = ∅ ∧ st = ⟨[(0, start)], [], [(start, 0)]⟩)

/-- The predecessor chain of `came_from` from a cell down to the cell where
lookup first fails, listed in walk order. -/
inductive ChainTo (cf : List (Cell × Cell)) : Cell → List Cell → Prop
  | stop {v : Cell} (h : lookupC cf v = none) : ChainTo cf v []
  | step {v u : Cell} {p : List Cell} (h : lookupC cf v = some u)
      (hc : ChainTo cf u p) : ChainTo cf v (p ++ [v])

/-- Some target of the list coincides with the position its segment search
starts from (the degenerate zero-length segment of claim C9). -/
def SelfHit : Cell → List Cell → Bool
  | _, [] => false
  | pos, t :: rest => if t = pos then true else SelfHit t rest

/-- The ordered (from, to) pairs of single-pair searches an ordering chains:
start to first target, each target to the next, and, when `ro` is set, last
target back to start. -/
def segmentPairs (start : Cell) (ro : Bool) (order : List Cell) : List (Cell × Cell) :=
  List.zip (start :: order) order ++
    (if ro then [((start :: order).getLast (by simp), start)] else [])

/-- Specification of one ordering's outcome: run every chained segment; the
ordering is invalid (`none`) if any segment comes back empty, otherwise its
value is the concatenated path and the summed cost. -/
def orderOutcome (g : List (List String)) (start : Cell) (ro : Bool)
    (order : List Cell) : Option (List Cell × OCost) :=
  let segs := (segmentPairs start ro order).map fun pr => ucsG g pr.1 pr.2
  if segs.any (fun s => s.1.isEmpty) then none
  else some (segs.flatMap (fun s => s.1), segs.foldl (fun a s => oAdd a s.2) (some 0))

/-- Specification of the planner from the claim's words: among the valid
orderings (in `itertools.permutations` enumeration order), return the path
of the first one achieving the minimum total cost — the first candidate no
other candidate strictly undercuts — or the empty path if none is valid. -/
def planRouteSpec (g : List (List String)) (start : Cell) (ts : List Cell)
    (ro : Bool) : List Cell :=
  let valids := (permutations ts).filterMap (orderOutcome g start ro)
  match valids.find? (fun r => valids.all fun r2 => !(oLT r2.2 r.2)) with
  | some r => r.1
  | none => []

/-- Invariant carried through the relaxation fold of one fresh expansion:
`cur` was just popped with key `k` (its settled cost), `popped` holds the
previously settled cells, and `done` the neighbors already relaxed. -/
structure FoldInv (g : List (List String)) (start cur : Cell) (k : ℚ)
    (popped : Finset Cell) (done : List Cell) (st : UState) : Prop where
  keysNonneg : ∀ e ∈ st.open_set, 0 ≤ e.1
  openCells : ∀ e ∈ st.open_set, e.2 = start ∨ InB g e.2
  minK : ∀ e ∈ st.open_set, k ≤ e.1
  dStart : lookupC st.cost_so_far start = some 0
  dCur : lookupC st.cost_so_far cur = some k
  leK : ∀ u ∈ insert cur popped, ∀ du, lookupC st.cost_so_far u = some du → du ≤ k
  cfLink : ∀ v u, lookupC st.came_from v = some u → u ∈ insert cur popped ∧
    v ∈ get_neighborsG g u.1 u.2 ∧
    ∃ du, lookupC st.cost_so_far u = some du ∧
      lookupC st.cost_so_far v = some (du + stepW g v)
  cfNone : ∀ v d, lookupC st.cost_so_far v = some d →
    lookupC st.came_from v = none → v = start
  lenEq : st.cost_so_far.length = st.came_from.length + 1
  relaxedOld : ∀ u ∈ popped, ∃ du, lookupC st.cost_so_far u = some du ∧
    ∀ nb ∈ get_neighborsG g u.1 u.2, ∃ dnb, lookupC st.cost_so_far nb = some dnb ∧
      dnb ≤ du + stepW g nb
  relaxedCur : ∀ nb ∈ done, ∃ dnb, lookupC st.cost_so_far nb = some dnb ∧
    dnb ≤ k + stepW g nb
  heapSound : ∀ e ∈ st.open_set, ∃ d, lookupC st.cost_so_far e.2 = some d ∧ d ≤ e.1
  present : ∀ v d, lookupC st.cost_so_far v = some d →
    v ∈ insert cur popped ∨ (d, v) ∈ st.open_set
  finalized : ∀ u ∈ insert cur popped, ∀ du, lookupC st.cost_so_far u = some du →
    ∀ p, Walk g start u p → du ≤ walkCost g p

/- ------------------------ basic lemmas ------------------------ -/

theorem lookupC_mem {β : Type} {l : List (Cell × β)} {k : Cell} {v : β} :
    lookupC l k = some v → (k, v) ∈ l := by
  induction l with
  | nil => intro h; simp [lookupC] at h
  | cons e rest ih =>
    intro h
    rcases e with ⟨ek, ev⟩
    simp only [lookupC] at h
    by_cases hk : k = ek
    · rw [if_pos hk] at h
      injection h with h
      subst hk
      subst h
      exact List.mem_cons_self _ _
    · rw [if_neg hk] at h
      exact List.mem_cons_of_mem _ (ih h)

theorem stepCostOf_pos (t : String) : 0 < stepCostOf t := by
  unfold stepCostOf
  split <;> norm_num
  split <;> norm_num

theorem stepW_pos (g : List (List String)) (x : Cell) : 0 < stepW g x :=
  stepCostOf_pos _

theorem cellLt_irrefl (p : Cell) : ¬ cellLt p p := by unfold cellLt; omega

theorem cellLt_trans {p q s : Cell} : cellLt p q → cellLt q s → cellLt p s := by
  unfold cellLt; omega

theorem cellLt_total (p q : Cell) : cellLt p q ∨ p = q ∨ cellLt q p := by
  unfold cellLt
  rcases p with ⟨a, b⟩
  rcases q with ⟨c, d⟩
  simp only [Prod.mk.injEq]
  omega

theorem tupLt_irrefl (a : ℚ × Cell) : ¬ tupLt a a := by
  unfold tupLt
  rintro (h | ⟨-, h⟩)
  · exact lt_irrefl _ h
  · exact cellLt_irrefl _ h

theorem tupLt_trans {a b c : ℚ × Cell} : tupLt a b → tupLt b c → tupLt a c := by
  unfold tupLt
  rintro (h | ⟨e, h⟩) (h' | ⟨e', h'⟩)
  · exact Or.inl (lt_trans h h')
  · exact Or.inl (e' ▸ h)
  · exact Or.inl (e ▸ h')
  · exact Or.inr ⟨e.trans e', cellLt_trans h h'⟩

theorem tupLt_total (a b : ℚ × Cell) : tupLt a b ∨ a = b ∨ tupLt b a := by
  unfold tupLt
  rcases lt_trichotomy a.1 b.1 with h | h | h
  · exact Or.inl (Or.inl h)
  · rcases cellLt_total a.2 b.2 with h2 | h2 | h2
    · exact Or.inl (Or.inr ⟨h, h2⟩)
    · exact Or.inr (Or.inl (Prod.ext h h2))
    · exact Or.inr (Or.inr (Or.inr ⟨h.symm, h2⟩))
  · exact Or.inr (Or.inr (Or.inl h))

theorem not_tupLt_fst_le {y m : ℚ × Cell} (h : ¬ tupLt y m) : m.1 ≤ y.1 := by
  by_contra hlt
  exact h (Or.inl (by linarith [lt_of_not_le hlt]))

theorem tupLe_trans {a b c : ℚ × Cell}
    (h1 : ¬ tupLt b a) (h2 : ¬ tupLt c b) : ¬ tupLt c a := by
  intro hca
  rcases tupLt_total a b with h | h | h
  · exact h2 (tupLt_trans hca h)
  · subst h; exact h2 hca
  · exact h1 h

theorem popMin_eq_none {l : List (ℚ × Cell)} : popMin l = none ↔ l = [] := by
  cases l with
  | nil => simp [popMin]
  | cons x xs =>
    simp only [popMin]
    cases h : popMin xs with
    | none => simp
    | some p =>
      rcases p with ⟨m, rest⟩
      by_cases ht : tupLt m x <;> simp [ht]

theorem popMin_perm {l : List (ℚ × Cell)} {m : ℚ × Cell} {rest : List (ℚ × Cell)} :
    popMin l = some (m, rest) → l.Perm (m :: rest) := by
  induction l generalizing m rest with
  | nil => intro h; simp [popMin] at h
  | cons x xs ih =>
    intro h
    simp only [popMin] at h
    cases hx : popMin xs with
    | none =>
      rw [hx] at h
      dsimp only at h
      have hnil : xs = [] := popMin_eq_none.mp hx
      injection h with h
      injection h with h1 h2
      subst hnil
      subst h1
      subst h2
      exact List.Perm.refl _
    | some p =>
      rcases p with ⟨m', rest'⟩
      rw [hx] at h
      dsimp only at h
      by_cases ht : tupLt m' x
      · rw [if_pos ht] at h
        injection h with h
        injection h with h1 h2
        subst h1
        subst h2
        exact ((ih hx).cons x).trans (List.Perm.swap _ _ _)
      · rw [if_neg ht] at h
        injection h with h
        injection h with h1 h2
        subst h1
        subst h2
        exact List.Perm.refl _

theorem popMin_min {l : List (ℚ × Cell)} {m : ℚ × Cell} {rest : List (ℚ × Cell)} :
    popMin l = some (m, rest) → ∀ y ∈ l, ¬ tupLt y m := by
  induction l generalizing m rest with
  | nil => intro h; simp [popMin] at h
  | cons x xs ih =>
    intro h y hy
    simp only [popMin] at h
    cases hx : popMin xs with
    | none =>
      rw [hx] at h
      dsimp only at h
      have hnil : xs = [] := popMin_eq_none.mp hx
      injection h with h
      injection h with h1 h2
      subst hnil
      subst h1
      rcases List.mem_singleton.mp hy with rfl
      exact tupLt_irrefl _
    | some p =>
      rcases p with ⟨m', rest'⟩
      rw [hx] at h
      dsimp only at h
      by_cases ht : tupLt m' x
      · rw [if_pos ht] at h
        injection h with h
        injection h with h1 h2
        subst h1
        rcases List.mem_cons.mp hy with rfl | hy'
        · intro hc; exact tupLt_irrefl _ (tupLt_trans ht hc)
        · exact ih hx y hy'
      · rw [if_neg ht] at h
        injection h with h
        injection h with h1 h2
        subst h1
        rcases List.mem_cons.mp hy with rfl | hy'
        · exact tupLt_irrefl _
        · exact tupLe_trans ht (ih hx y hy')

/- ------------------------ neighbor characterization ------------------------ -/

theorem filterMap_bounds_aux (g : List (List String)) (r c : Int)
    (l : List (Int × Int)) :
    (l.filterMap fun d =>
      let nr := r + d.1
      let nc := c + d.2
      if 0 ≤ nr ∧ nr < rowsI g ∧ 0 ≤ nc ∧ nc < colsI g ∧ tileAtG g nr nc ≠ BLOCKED
      then some (nr, nc) else none) =
    (l.map fun d => (r + d.1, c + d.2)).filter
      fun x => decide (InB g x ∧ tileAtG g x.1 x.2 ≠ BLOCKED) := by
  induction l with
  | nil => rfl
  | cons a l ih =>
    simp only [List.filterMap_cons, List.map_cons, List.filter_cons]
    by_cases h : InB g (r + a.1, c + a.2) ∧ tileAtG g (r + a.1) (c + a.2) ≠ BLOCKED
    · have h1 : 0 ≤ r + a.1 ∧ r + a.1 < rowsI g ∧ 0 ≤ c + a.2 ∧ c + a.2 < colsI g ∧
          tileAtG g (r + a.1) (c + a.2) ≠ BLOCKED := by
        obtain ⟨⟨x1, x2, x3, x4⟩, x5⟩ := h
        exact ⟨x1, x2, x3, x4, x5⟩
      rw [if_pos h1, ih]
      have h2 : (decide (InB g (r + a.1, c + a.2) ∧
          tileAtG g (r + a.1, c + a.2).1 (r + a.1, c + a.2).2 ≠ BLOCKED)) = true := by
        simpa using h
      simp [h2]
    · have h1 : ¬(0 ≤ r + a.1 ∧ r + a.1 < rowsI g ∧ 0 ≤ c + a.2 ∧ c + a.2 < colsI g ∧
          tileAtG g (r + a.1) (c + a.2) ≠ BLOCKED) := by
        intro hx
        exact h ⟨⟨hx.1, hx.2.1, hx.2.2.1, hx.2.2.2.1⟩, hx.2.2.2.2⟩
      rw [if_neg h1, ih]
      have h2 : (decide (InB g (r + a.1, c + a.2) ∧
          tileAtG g (r + a.1, c + a.2).1 (r + a.1, c + a.2).2 ≠ BLOCKED)) = false := by
        simpa using h
      simp [h2]

theorem get_neighborsG_eq_filter (g : List (List String)) (r c : Int) :
    get_neighborsG g r c = (hexCandidates r c).filter
      fun x => decide (InB g x ∧ tileAtG g x.1 x.2 ≠ BLOCKED) := by
  by_cases he : (c % 2 == 0) = true
  · rw [show hexCandidates r c =
        ([((-1 : Int), (0 : Int)), (1, 0), (0, -1), (0, 1), (-1, -1), (-1, 1)]).map
          (fun d => (r + d.1, c + d.2)) from by
      simp [hexCandidates, he, sub_eq_add_neg]]
    rw [← filterMap_bounds_aux]
    simp [get_neighborsG, he]
  · rw [show hexCandidates r c =
        ([((-1 : Int), (0 : Int)), (1, 0), (0, -1), (0, 1), (1, -1), (1, 1)]).map
          (fun d => (r + d.1, c + d.2)) from by
      simp [hexCandidates, he, sub_eq_add_neg]]
    rw [← filterMap_bounds_aux]
    simp [get_neighborsG, he]

theorem mem_get_neighborsG {g : List (List String)} {r c : Int} {x : Cell} :
    x ∈ get_neighborsG g r c ↔
      x ∈ hexCandidates r c ∧ InB g x ∧ tileAtG g x.1 x.2 ≠ BLOCKED := by
  rw [get_neighborsG_eq_filter]
  simp [List.mem_filter]

theorem get_neighborsG_inb {g : List (List String)} {r c : Int} {x : Cell}
    (h : x ∈ get_neighborsG g r c) : InB g x ∧ tileAtG g x.1 x.2 ≠ BLOCKED :=
  (mem_get_neighborsG.mp h).2

theorem hexCandidates_length (r c : Int) : (hexCandidates r c).length = 6 := by
  by_cases he : (c % 2 == 0) = true <;> simp [hexCandidates, he]

theorem get_neighborsG_length_le (g : List (List String)) (r c : Int) :
    (get_neighborsG g r c).length ≤ 6 := by
  rw [get_neighborsG_eq_filter]
  calc ((hexCandidates r c).filter _).length ≤ (hexCandidates r c).length :=
        List.length_filter_le _ _
    _ = 6 := hexCandidates_length r c

/- ------------------------ walk lemmas ------------------------ -/

theorem walkCost_nil (g : List (List String)) : walkCost g [] = 0 := rfl

theorem walkCost_cons (g : List (List String)) (v : Cell) (p : List Cell) :
    walkCost g (v :: p) = stepW g v + walkCost g p := by
  simp [walkCost]

theorem walkCost_append (g : List (List String)) (p q : List Cell) :
    walkCost g (p ++ q) = walkCost g p + walkCost g q := by
  simp [walkCost]

theorem walkCost_nonneg (g : List (List String)) (p : List Cell) :
    0 ≤ walkCost g p := by
  induction p with
  | nil => simp [walkCost]
  | cons v p ih =>
    rw [walkCost_cons]
    have := stepW_pos g v
    linarith

theorem walk_snoc {g : List (List String)} {a b c : Cell} {p : List Cell}
    (hw : Walk g a b p) (hc : c ∈ get_neighborsG g b.1 b.2) :
    Walk g a c (p ++ [c]) := by
  induction hw with
  | nil v => exact Walk.cons hc (Walk.nil c)
  | cons hv _ ih => exact Walk.cons hv (ih hc)

/-- A walk ending at a blocked cell is the empty walk at the start cell
(neighbor lists never contain blocked cells). -/
theorem walk_blocked {g : List (List String)} {s z : Cell} {p : List Cell}
    (hw : Walk g s z p) : tileAtG g z.1 z.2 = BLOCKED → p = [] ∧ z = s := by
  induction hw with
  | nil v => exact fun _ => ⟨rfl, rfl⟩
  | cons hv hw ih =>
    intro hz
    obtain ⟨h1, h2⟩ := ih hz
    subst h1
    subst h2
    exact absurd hz (get_neighborsG_inb hv).2

/- ------------------------ adjacency symmetry ------------------------ -/

set_option maxHeartbeats 1000000 in
theorem hexCandidates_symm_mp {a b : Cell} (h : b ∈ hexCandidates a.1 a.2) :
    a ∈ hexCandidates b.1 b.2 := by
  rcases a with ⟨ar, ac⟩
  rcases b with ⟨br, bc⟩
  cases hpa : (ac % 2 == 0) <;> cases hpb : (bc % 2 == 0)
  · have hpa2 : ac % 2 ≠ 0 := by simpa using hpa
    have hpb2 : bc % 2 ≠ 0 := by simpa using hpb
    simp only [hexCandidates, hpa, hpb, Bool.false_eq_true, if_false,
      List.mem_append, List.mem_cons, List.not_mem_nil, or_false, Prod.mk.injEq] at h ⊢
    omega
  · have hpa2 : ac % 2 ≠ 0 := by simpa using hpa
    have hpb2 : bc % 2 = 0 := by simpa using hpb
    simp only [hexCandidates, hpa, hpb, Bool.false_eq_true, if_false, if_true,
      List.mem_append, List.mem_cons, List.not_mem_nil, or_false, Prod.mk.injEq] at h ⊢
    omega
  · have hpa2 : ac % 2 = 0 := by simpa using hpa
    have hpb2 : bc % 2 ≠ 0 := by simpa using hpb
    simp only [hexCandidates, hpa, hpb, if_true, Bool.false_eq_true, if_false,
      List.mem_append, List.mem_cons, List.not_mem_nil, or_false, Prod.mk.injEq] at h ⊢
    omega
  · have hpa2 : ac % 2 = 0 := by simpa using hpa
    have hpb2 : bc % 2 = 0 := by simpa using hpb
    simp only [hexCandidates, hpa, hpb, if_true, List.mem_append, List.mem_cons,
      List.not_mem_nil, or_false, Prod.mk.injEq] at h ⊢
    omega

theorem neighbors_symm (g : List (List String)) {a b : Cell}
    (ha : InB g a) (hb : InB g b)
    (hta : tileAtG g a.1 a.2 ≠ BLOCKED) (htb : tileAtG g b.1 b.2 ≠ BLOCKED) :
    b ∈ get_neighborsG g a.1 a.2 ↔ a ∈ get_neighborsG g b.1 b.2 := by
  rw [mem_get_neighborsG, mem_get_neighborsG]
  constructor
  · rintro ⟨hc, -⟩
    exact ⟨hexCandidates_symm_mp hc, ha, hta⟩
  · rintro ⟨hc, -⟩
    exact ⟨hexCandidates_symm_mp hc, hb, htb⟩

/- ------------------------ first-iteration facts ------------------------ -/

theorem ucsG_self (g : List (List String)) (s : Cell) : ucsG g s s = ([], some 0) := by
  show ucsLoopG g s (fuelG g) _ = _
  rw [show fuelG g = 6 * (g.length * (g.headD []).length + 1) + 1 from rfl]
  simp [ucsLoopG, popMin, reconstruct, lookupC]

/- ------------------------ relax case analysis ------------------------ -/

theorem lookupC_cons {β : Type} (k : Cell) (v : β) (l : List (Cell × β)) (key : Cell) :
    lookupC ((k, v) :: l) key = if key = k then some v else lookupC l key := rfl

/-- The pushed state of a single relaxation. -/
def pushState (g : List (List String)) (cc : ℚ) (cur : Cell) (st : UState)
    (nb : Cell) : UState :=
  ⟨(cc + stepW g nb, nb) :: st.open_set,
   (nb, cur) :: st.came_from,
   (nb, cc + stepW g nb) :: st.cost_so_far⟩

theorem relax_eq_push_none {g : List (List String)} {cc : ℚ} {cur : Cell}
    {st : UState} {nb : Cell} (h : lookupC st.cost_so_far nb = none) :
    relax g cc cur st nb = pushState g cc cur st nb := by
  unfold relax pushState stepW
  rw [h]

theorem relax_eq_push_lt {g : List (List String)} {cc : ℚ} {cur : Cell}
    {st : UState} {nb : Cell} {c : ℚ} (h : lookupC st.cost_so_far nb = some c)
    (hlt : cc + stepW g nb < c) :
    relax g cc cur st nb = pushState g cc cur st nb := by
  unfold relax pushState
  rw [h]
  simp only [stepW] at hlt
  dsimp only
  rw [if_pos hlt]
  rfl

theorem relax_eq_skip {g : List (List String)} {cc : ℚ} {cur : Cell}
    {st : UState} {nb : Cell} {c : ℚ} (h : lookupC st.cost_so_far nb = some c)
    (hlt : ¬ cc + stepW g nb < c) :
    relax g cc cur st nb = st := by
  unfold relax
  rw [h]
  simp only [stepW] at hlt
  dsimp only
  rw [if_neg hlt]

theorem relax_cases (g : List (List String)) (cc : ℚ) (cur : Cell)
    (st : UState) (nb : Cell) :
    relax g cc cur st nb = st ∨ relax g cc cur st nb = pushState g cc cur st nb := by
  cases h : lookupC st.cost_so_far nb with
  | none => exact Or.inr (relax_eq_push_none h)
  | some c =>
    by_cases hlt : cc + stepW g nb < c
    · exact Or.inr (relax_eq_push_lt h hlt)
    · exact Or.inl (relax_eq_skip h hlt)

theorem foldl_relax_open_mem (g : List (List String)) (cc : ℚ) (cur : Cell) :
    ∀ (l : List Cell) (st : UState),
      ∀ e ∈ (l.foldl (relax g cc cur) st).open_set, e ∈ st.open_set ∨ e.2 ∈ l := by
  intro l
  induction l with
  | nil => intro st e he; exact Or.inl he
  | cons nb l ih =>
    intro st e he
    rw [List.foldl_cons] at he
    rcases ih (relax g cc cur st nb) e he with h | h
    · rcases relax_cases g cc cur st nb with hr | hr
      · rw [hr] at h
        exact Or.inl h
      · rw [hr] at h
        rcases List.mem_cons.mp h with rfl | h'
        · exact Or.inr (List.mem_cons_self _ _)
        · exact Or.inl h'
    · exact Or.inr (List.mem_cons_of_mem _ h)

/- ------------------------ unreachable goals (claim C5) ------------------------ -/

theorem ucsLoop_unreachable (g : List (List String)) (s goal : Cell)
    (hgoal : ¬ ∃ p, Walk g s goal p) :
    ∀ (fuel : Nat) (st : UState),
      (∀ e ∈ st.open_set, ∃ p, Walk g s e.2 p) →
      ucsLoopG g goal fuel st = ([], none) := by
  intro fuel
  induction fuel with
  | zero => intro st _; rfl
  | succ fuel ih =>
    intro st hreach
    rw [ucsLoopG]
    cases hpop : popMin st.open_set with
    | none => rfl
    | some pr =>
      rcases pr with ⟨⟨cc, cur⟩, rest⟩
      dsimp only
      have hcur : ∃ p, Walk g s cur p := by
        have : (cc, cur) ∈ st.open_set :=
          (popMin_perm hpop).mem_iff.mpr (List.mem_cons_self _ _)
        exact hreach _ this
      by_cases hg : cur = goal
      · subst hg
        exact absurd hcur hgoal
      · rw [if_neg hg]
        apply ih
        intro e he
        rcases foldl_relax_open_mem g cc cur _ _ e he with h | h
        · apply hreach
          exact (popMin_perm hpop).mem_iff.mpr (List.mem_cons_of_mem _ h)
        · obtain ⟨p, hp⟩ := hcur
          exact ⟨p ++ [e.2], walk_snoc hp h⟩

theorem ucsG_unreachable (g : List (List String)) (s goal : Cell)
    (hgoal : ¬ ∃ p, Walk g s goal p) : ucsG g s goal = ([], none) := by
  apply ucsLoop_unreachable g s goal hgoal
  intro e he
  rcases List.mem_singleton.mp he with rfl
  exact ⟨[], Walk.nil s⟩

/-- A blocked goal different from the start admits no walk at all. -/
theorem no_walk_to_blocked {g : List (List String)} {s goal : Cell}
    (hb : tileAtG g goal.1 goal.2 = BLOCKED) (hne : goal ≠ s) :
    ¬ ∃ p, Walk g s goal p := by
  rintro ⟨p, hp⟩
  exact hne (walk_blocked hp hb).2

/- ------------------------ nonempty paths carry finite costs ------------------------ -/

/-- Weak invariant: every predecessor key has a recorded cost. -/
def CfCovered (st : UState) : Prop :=
  ∀ v u, lookupC st.came_from v = some u → ∃ d, lookupC st.cost_so_far v = some d

theorem cfCovered_relax {g : List (List String)} {cc : ℚ} {cur : Cell}
    {st : UState} (h : CfCovered st) (nb : Cell) :
    CfCovered (relax g cc cur st nb) := by
  rcases relax_cases g cc cur st nb with hr | hr <;> rw [hr]
  · exact h
  · intro v u hv
    unfold pushState at hv ⊢
    dsimp only at hv ⊢
    rw [lookupC_cons] at hv
    rw [lookupC_cons]
    by_cases hvnb : v = nb
    · rw [if_pos hvnb]
      exact ⟨_, rfl⟩
    · rw [if_neg hvnb] at hv
      rw [if_neg hvnb]
      exact h v u hv

theorem cfCovered_foldl {g : List (List String)} {cc : ℚ} {cur : Cell} :
    ∀ (l : List Cell) (st : UState), CfCovered st →
      CfCovered (l.foldl (relax g cc cur) st) := by
  intro l
  induction l with
  | nil => intro st h; exact h
  | cons nb l ih =>
    intro st h
    rw [List.foldl_cons]
    exact ih _ (cfCovered_relax h nb)

theorem ucsLoop_nonempty_cost (g : List (List String)) (goal : Cell) :
    ∀ (fuel : Nat) (st : UState), CfCovered st →
      (ucsLoopG g goal fuel st).1 ≠ [] →
      ∃ c, (ucsLoopG g goal fuel st).2 = some c := by
  intro fuel
  induction fuel with
  | zero => intro st _ hne; exact absurd rfl hne
  | succ fuel ih =>
    intro st hcov hne
    rw [ucsLoopG] at hne ⊢
    cases hpop : popMin st.open_set with
    | none => rw [hpop] at hne; exact absurd rfl hne
    | some pr =>
      rcases pr with ⟨⟨cc, cur⟩, rest⟩
      rw [hpop] at hne
      dsimp only at hne ⊢
      by_cases hg : cur = goal
      · rw [if_pos hg] at hne ⊢
        dsimp only at hne ⊢
        cases hcf : lookupC st.came_from cur with
        | none =>
          exfalso
          apply hne
          rw [reconstruct, hcf]
          rfl
        | some prev =>
          obtain ⟨d, hd⟩ := hcov cur prev hcf
          rw [hg] at hd
          exact ⟨d, by rw [hd]⟩
      · rw [if_neg hg] at hne ⊢
        exact ih _ (cfCovered_foldl _ _ hcov) hne

theorem ucsG_nonempty_cost {g : List (List String)} {s t : Cell}
    (hne : (ucsG g s t).1 ≠ []) : ∃ c, (ucsG g s t).2 = some c := by
  apply ucsLoop_nonempty_cost g t (fuelG g) _ _ hne
  intro v u hv
  simp [lookupC] at hv

/- ------------------------ planner on tiny target lists ------------------------ -/

theorem permutations_singleton {α : Type} (x : α) : permutations [x] = [[x]] := by
  rw [permutations]
  simp [selections, permutations]

theorem fbtp_singleton (g : List (List String)) (s t : Cell) :
    find_best_treasure_pathG g s [t] false = (ucsG g s t).1 := by
  unfold find_best_treasure_pathG
  rw [if_neg (by simp)]
  rw [permutations_singleton]
  rw [List.foldl_cons, List.foldl_nil]
  unfold runOrder visitAll
  cases hseg : ucsG g s t with
  | mk segPath segCost =>
    dsimp only
    by_cases hp : segPath = []
    · rw [if_pos hp]
      simp [hp]
    · rw [if_neg hp]
      unfold visitAll
      dsimp only
      obtain ⟨c, hc⟩ : ∃ c, segCost = some c := by
        have := @ucsG_nonempty_cost g s t
        rw [hseg] at this
        exact this hp
      subst hc
      simp [oAdd, oLT]

theorem visitAll_selfHit (g : List (List String)) :
    ∀ (order : List Cell) (pos : Cell) (tp : List Cell) (tc : OCost),
      SelfHit pos order = true → visitAll g pos order tp tc = none := by
  intro order
  induction order with
  | nil => intro pos tp tc h; simp [SelfHit] at h
  | cons t rest ih =>
    intro pos tp tc h
    unfold visitAll
    by_cases ht : t = pos
    · subst ht
      rw [ucsG_self]
      rfl
    · unfold SelfHit at h
      rw [if_neg ht] at h
      dsimp only
      by_cases hseg : (ucsG g pos t).1 = []
      · rw [if_pos hseg]
      · rw [if_neg hseg]
        exact ih t _ _ h

theorem fbtp_self (g : List (List String)) (s : Cell) (ro : Bool) :
    find_best_treasure_pathG g s [s] ro = [] := by
  unfold find_best_treasure_pathG
  rw [if_neg (by simp)]
  rw [permutations_singleton]
  rw [List.foldl_cons, List.foldl_nil]
  unfold runOrder visitAll
  rw [ucsG_self]
  rfl

/- ------------------------ search.py / map.py equivalence ------------------------ -/

theorem tileAtG_mem_or (g : List (List String)) (r c : Int) :
    tileAtG g r c = "" ∨ tileAtG g r c ∈ g.flatten := by
  unfold tileAtG
  by_cases hr : r.toNat < g.length
  · rw [List.getD_eq_getElem g [] hr]
    by_cases hc : c.toNat < (g[r.toNat]).length
    · rw [List.getD_eq_getElem _ "" hc]
      exact Or.inr (List.mem_flatten.mpr ⟨g[r.toNat], List.getElem_mem hr, List.getElem_mem hc⟩)
    · rw [List.getD_eq_default _ "" (le_of_not_lt hc)]
      exact Or.inl rfl
  · rw [List.getD_eq_default _ [] (le_of_not_lt hr)]
    exact Or.inl rfl

theorem stepCostOf_eq_search {t : String} (h3 : t ≠ "X3") (h4 : t ≠ "X4") :
    stepCostOfSearch t = stepCostOf t := by
  unfold stepCostOf stepCostOfSearch TRAPS REWARDS
  simp only [List.mem_cons, List.not_mem_nil, or_false]
  split_ifs <;> simp_all

theorem relaxSearch_eq {g : List (List String)} {cc : ℚ} {cur : Cell}
    {st : UState} {nb : Cell}
    (h : stepCostOfSearch (tileAtG g nb.1 nb.2) = stepCostOf (tileAtG g nb.1 nb.2)) :
    relaxSearch g cc cur st nb = relax g cc cur st nb := by
  unfold relax relaxSearch
  dsimp only
  rw [h]

theorem ucsLoopSearch_eq (g : List (List String)) (goal : Cell)
    (h : ∀ x : Cell, stepCostOfSearch (tileAtG g x.1 x.2) = stepCostOf (tileAtG g x.1 x.2)) :
    ∀ (fuel : Nat) (st : UState),
      ucsLoopSearch g goal fuel st = ucsLoopG g goal fuel st := by
  intro fuel
  induction fuel with
  | zero => intro st; rfl
  | succ fuel ih =>
    intro st
    rw [ucsLoopSearch, ucsLoopG]
    cases hpop : popMin st.open_set with
    | none => rfl
    | some pr =>
      rcases pr with ⟨⟨cc, cur⟩, rest⟩
      dsimp only
      by_cases hg : cur = goal
      · rw [if_pos hg, if_pos hg]
      · rw [if_neg hg, if_neg hg]
        rw [List.foldl_ext (relaxSearch g cc cur) (relax g cc cur) _
          (fun st' nb _ => relaxSearch_eq (h nb))]
        exact ih _

theorem ucsSearch_eq (g : List (List String))
    (h3 : "X3" ∉ g.flatten) (h4 : "X4" ∉ g.flatten) (start goal : Cell) :
    ucsSearch g start goal = ucsG g start goal := by
  apply ucsLoopSearch_eq
  intro x
  apply stepCostOf_eq_search
  · rcases tileAtG_mem_or g x.1 x.2 with h | h
    · rw [h]; intro hx; exact absurd hx.symm (by decide)
    · intro hx; rw [hx] at h; exact h3 h
  · rcases tileAtG_mem_or g x.1 x.2 with h | h
    · rw [h]; intro hx; exact absurd hx.symm (by decide)
    · intro hx; rw [hx] at h; exact h4 h

/- ------------------------ float-order lemmas for the planner ------------------------ -/

theorem oLT_irrefl (a : OCost) : oLT a a = false := by
  cases a <;> simp [oLT]

theorem oLT_none_left (a : OCost) : oLT none a = false := by
  cases a <;> rfl

theorem oLT_trans {a b c : OCost} (h1 : oLT a b = true) (h2 : oLT b c = true) :
    oLT a c = true := by
  cases a <;> cases b <;> cases c <;> simp [oLT] at * <;> linarith

theorem oLT_lt_of_lt_of_le {a b c : OCost} (h1 : oLT a b = true)
    (h2 : oLT c b = false) : oLT a c = true := by
  cases a <;> cases b <;> cases c <;> simp [oLT] at * <;> linarith

theorem oLT_lt_of_le_of_lt {a b c : OCost} (h1 : oLT b a = false)
    (h2 : oLT b c = true) : oLT a c = true := by
  cases a <;> cases b <;> cases c <;> simp [oLT] at * <;> linarith

theorem oLT_le_trans {a b c : OCost} (h1 : oLT b a = false)
    (h2 : oLT c b = false) : oLT c a = false := by
  cases a <;> cases b <;> cases c <;> simp [oLT] at * <;> linarith

/- ------------------------ generic list helpers ------------------------ -/

theorem find?_congr {α : Type} {p q : α → Bool} :
    ∀ (l : List α), (∀ x ∈ l, p x = q x) → l.find? p = l.find? q := by
  intro l
  induction l with
  | nil => intro _; rfl
  | cons a l ih =>
    intro h
    rw [List.find?_cons, List.find?_cons]
    rw [h a (List.mem_cons_self _ _)]
    cases q a
    · exact ih fun x hx => h x (List.mem_cons_of_mem _ hx)
    · rfl

theorem foldl_elim_filterMap {α β γ : Type} (f : α → Option β) (step : γ → β → γ) :
    ∀ (l : List α) (acc : γ),
      l.foldl (fun a x => (f x).elim a (step a)) acc = (l.filterMap f).foldl step acc := by
  intro l
  induction l with
  | nil => intro acc; rfl
  | cons a l ih =>
    intro acc
    rw [List.foldl_cons, List.filterMap_cons]
    cases hf : f a with
    | none => exact ih acc
    | some b =>
      dsimp only
      rw [List.foldl_cons]
      exact ih (step acc b)

theorem exists_min_oLT :
    ∀ (l : List (List Cell × OCost)), l ≠ [] →
      ∃ x ∈ l, (l.all fun r2 => !(oLT r2.2 x.2)) = true := by
  intro l
  induction l with
  | nil => intro h; exact absurd rfl h
  | cons r l ih =>
    intro _
    by_cases hl : l = []
    · subst hl
      refine ⟨r, List.mem_cons_self _ _, ?_⟩
      simp [oLT_irrefl]
    · obtain ⟨x, hxmem, hxmin⟩ := ih hl
      rw [List.all_eq_true] at hxmin
      by_cases hrx : oLT r.2 x.2 = true
      · refine ⟨r, List.mem_cons_self _ _, ?_⟩
        rw [List.all_eq_true]
        intro y hy
        rcases List.mem_cons.mp hy with rfl | hy'
        · simp [oLT_irrefl]
        · have hyx := hxmin y hy'
          simp only [Bool.not_eq_true'] at hyx ⊢
          by_contra hcon
          simp only [Bool.not_eq_false] at hcon
          have := oLT_trans hcon hrx
          rw [hyx] at this
          exact Bool.false_ne_true this
      · refine ⟨x, List.mem_cons_of_mem _ hxmem, ?_⟩
        rw [List.all_eq_true]
        intro y hy
        rcases List.mem_cons.mp hy with rfl | hy'
        · simp only [Bool.not_eq_true']
          exact Bool.not_eq_true _ ▸ (by simpa using hrx)
        · exact hxmin y hy'

/- ------------------------ first-minimum selection ------------------------ -/

theorem pickBest_eq_find :
    ∀ (l : List (List Cell × OCost)) (acc : List Cell × OCost),
      l.foldl (fun best r => if oLT r.2 best.2 then r else best) acc =
        ((acc :: l).find? (fun r => (acc :: l).all fun r2 => !(oLT r2.2 r.2))).getD acc := by
  intro l
  induction l with
  | nil =>
    intro acc
    rw [List.foldl_nil]
    have hpos : (([acc] : List (List Cell × OCost)).find?
        (fun r => ([acc] : List (List Cell × OCost)).all fun r2 => !(oLT r2.2 r.2))) = some acc := by
      apply List.find?_cons_of_pos
      simp [oLT_irrefl]
    rw [hpos]
    rfl
  | cons r l ih =>
    intro acc
    rw [List.foldl_cons]
    by_cases hlt : oLT r.2 acc.2 = true
    · rw [if_pos hlt]
      have haccfail : ((acc :: r :: l).all fun r2 => !(oLT r2.2 acc.2)) = false := by
        rw [List.all_eq_false]
        exact ⟨r, List.mem_cons_of_mem _ (List.mem_cons_self _ _), by simp [hlt]⟩
      have hstep : ((acc :: r :: l).find?
          (fun x => (acc :: r :: l).all fun r2 => !(oLT r2.2 x.2))) =
          ((r :: l).find? (fun x => (acc :: r :: l).all fun r2 => !(oLT r2.2 x.2))) := by
        apply List.find?_cons_of_neg
        simp only [haccfail]
        simp
      have hcongr : ((r :: l).find? fun x => (acc :: r :: l).all fun r2 => !(oLT r2.2 x.2)) =
          ((r :: l).find? fun x => (r :: l).all fun r2 => !(oLT r2.2 x.2)) := by
        apply find?_congr
        intro x _
        simp only [List.all_cons]
        by_cases h2 : oLT r.2 x.2 = true
        · simp [h2]
        · have hacc : oLT acc.2 x.2 = false := by
            by_contra hc
            simp only [Bool.not_eq_false] at hc
            have h3 := oLT_trans hlt hc
            simp only [Bool.not_eq_true] at h2
            rw [h2] at h3
            exact Bool.false_ne_true h3
          simp [hacc, h2]
      rw [hstep, hcongr, ih r]
      obtain ⟨x, hxmem, hxall⟩ := exists_min_oLT (r :: l) (by simp)
      have hsome : (((r :: l).find? fun x => (r :: l).all fun r2 => !(oLT r2.2 x.2))).isSome := by
        rw [List.find?_isSome]
        exact ⟨x, hxmem, hxall⟩
      cases hf : ((r :: l).find? fun x => (r :: l).all fun r2 => !(oLT r2.2 x.2)) with
      | none => rw [hf] at hsome; simp at hsome
      | some y => rfl
    · rw [if_neg hlt, ih acc]
      simp only [Bool.not_eq_true] at hlt
      by_cases hacc : (l.all fun r2 => !(oLT r2.2 acc.2)) = true
      · have hL : ((acc :: l).find?
            (fun x => (acc :: l).all fun r2 => !(oLT r2.2 x.2))) = some acc := by
          apply List.find?_cons_of_pos
          simp only [List.all_cons, oLT_irrefl, hacc]
          rfl
        have hR : ((acc :: r :: l).find?
            (fun x => (acc :: r :: l).all fun r2 => !(oLT r2.2 x.2))) = some acc := by
          apply List.find?_cons_of_pos
          simp only [List.all_cons, oLT_irrefl, hlt, hacc]
          rfl
        rw [hL, hR]
      · have hy : ∃ y ∈ l, oLT y.2 acc.2 = true := by
          by_contra hc
          push_neg at hc
          apply hacc
          rw [List.all_eq_true]
          intro y hymem
          have := hc y hymem
          simp [this]
        obtain ⟨y, hymem, hylt⟩ := hy
        have hylr : oLT y.2 r.2 = true := oLT_lt_of_lt_of_le hylt hlt
        have hL : ((acc :: l).find?
            (fun x => (acc :: l).all fun r2 => !(oLT r2.2 x.2))) =
            (l.find? (fun x => (acc :: l).all fun r2 => !(oLT r2.2 x.2))) := by
          apply List.find?_cons_of_neg
          have : ((acc :: l).all fun r2 => !(oLT r2.2 acc.2)) = false := by
            rw [List.all_eq_false]
            exact ⟨y, List.mem_cons_of_mem _ hymem, by simp [hylt]⟩
          simp only [this]
          simp
        have hR1 : ((acc :: r :: l).find?
            (fun x => (acc :: r :: l).all fun r2 => !(oLT r2.2 x.2))) =
            ((r :: l).find? (fun x => (acc :: r :: l).all fun r2 => !(oLT r2.2 x.2))) := by
          apply List.find?_cons_of_neg
          have : ((acc :: r :: l).all fun r2 => !(oLT r2.2 acc.2)) = false := by
            rw [List.all_eq_false]
            exact ⟨y, List.mem_cons_of_mem _ (List.mem_cons_of_mem _ hymem), by simp [hylt]⟩
          simp only [this]
          simp
        have hR2 : ((r :: l).find?
            (fun x => (acc :: r :: l).all fun r2 => !(oLT r2.2 x.2))) =
            (l.find? (fun x => (acc :: r :: l).all fun r2 => !(oLT r2.2 x.2))) := by
          apply List.find?_cons_of_neg
          have : ((acc :: r :: l).all fun r2 => !(oLT r2.2 r.2)) = false := by
            rw [List.all_eq_false]
            exact ⟨y, List.mem_cons_of_mem _ (List.mem_cons_of_mem _ hymem), by simp [hylr]⟩
          simp only [this]
          simp
        have hcongr : (l.find? fun x => (acc :: r :: l).all fun r2 => !(oLT r2.2 x.2)) =
            (l.find? fun x => (acc :: l).all fun r2 => !(oLT r2.2 x.2)) := by
          apply find?_congr
          intro x _
          simp only [List.all_cons]
          by_cases hall : (l.all fun r2 => !(oLT r2.2 x.2)) = true
          · have hrx : oLT r.2 x.2 = false := by
              by_contra hc
              simp only [Bool.not_eq_false] at hc
              have h1 : oLT y.2 x.2 = true := oLT_trans hylr hc
              rw [List.all_eq_true] at hall
              have h2 := hall y hymem
              rw [h1] at h2
              simp at h2
            simp [hall, hrx]
          · simp only [Bool.not_eq_true] at hall
            simp [hall]
        rw [hL, hR1, hR2, hcongr]

/- ------------------------ planner equals its specification ------------------------ -/

theorem visitAll_eq (g : List (List String)) :
    ∀ (order : List Cell) (pos : Cell) (tp : List Cell) (tc : OCost),
      visitAll g pos order tp tc =
        (if (((List.zip (pos :: order) order).map fun pr => ucsG g pr.1 pr.2).any
              fun s => s.1.isEmpty) then none
         else some ((pos :: order).getLast (by simp),
           tp ++ (((List.zip (pos :: order) order).map fun pr => ucsG g pr.1 pr.2).flatMap
             fun s => s.1),
           ((List.zip (pos :: order) order).map fun pr => ucsG g pr.1 pr.2).foldl
             (fun a s => oAdd a s.2) tc)) := by
  intro order
  induction order with
  | nil =>
    intro pos tp tc
    simp [visitAll]
  | cons t rest ih =>
    intro pos tp tc
    rw [show List.zip (pos :: t :: rest) (t :: rest) =
        (pos, t) :: List.zip (t :: rest) rest from rfl]
    rw [List.map_cons]
    unfold visitAll
    dsimp only
    by_cases hseg : (ucsG g pos t).1 = []
    · rw [if_pos hseg]
      have hemp : (ucsG g pos t).1.isEmpty = true := by
        rw [hseg]; rfl
      rw [List.any_cons]
      rw [hemp]
      rfl
    · rw [if_neg hseg]
      rw [ih t (tp ++ (ucsG g pos t).1) (oAdd tc (ucsG g pos t).2)]
      have hne : (ucsG g pos t).1.isEmpty = false := by
        cases hu : (ucsG g pos t).1 with
        | nil => exact absurd hu hseg
        | cons a b => rfl
      rw [List.any_cons, hne]
      rw [Bool.false_or]
      by_cases hany : (((List.zip (t :: rest) rest).map fun pr => ucsG g pr.1 pr.2).any
          fun s => s.1.isEmpty) = true
      · rw [if_pos hany, if_pos hany]
      · rw [if_neg hany, if_neg hany]
        rw [List.flatMap_cons, List.foldl_cons, List.append_assoc]
        have hgl : (pos :: t :: rest).getLast (by simp) = (t :: rest).getLast (by simp) :=
          List.getLast_cons (by simp)
        rw [hgl]

theorem runOrder_eq (g : List (List String)) (start : Cell) (ro : Bool)
    (order : List Cell) : runOrder g start ro order = orderOutcome g start ro order := by
  cases ro with
  | false =>
    unfold runOrder orderOutcome segmentPairs
    dsimp only
    rw [visitAll_eq]
    rw [if_neg Bool.false_ne_true, List.append_nil]
    by_cases hany : (((List.zip (start :: order) order).map fun pr => ucsG g pr.1 pr.2).any
        fun s => s.1.isEmpty) = true
    · rw [if_pos hany, if_pos hany]
    · rw [if_neg hany, if_neg hany]
      dsimp only
      rw [if_neg Bool.false_ne_true, List.nil_append]
  | true =>
    unfold runOrder orderOutcome segmentPairs
    dsimp only
    rw [visitAll_eq]
    rw [if_pos rfl]
    simp only [List.map_append, List.any_append]
    by_cases hany : (((List.zip (start :: order) order).map fun pr => ucsG g pr.1 pr.2).any
        fun s => s.1.isEmpty) = true
    · rw [if_pos hany]
      simp only [hany, Bool.true_or]
      rw [if_pos trivial]
    · rw [if_neg hany]
      dsimp only
      rw [if_pos trivial]
      rw [Bool.not_eq_true] at hany
      simp only [hany, Bool.false_or]
      simp only [List.map_cons, List.map_nil, List.any_cons, List.any_nil, Bool.or_false]
      by_cases hret : (ucsG g ((start :: order).getLast (by simp)) start).1 = []
      · rw [if_pos hret]
        have hemp : (ucsG g ((start :: order).getLast (by simp)) start).1.isEmpty = true := by
          rw [hret]; rfl
        simp only [hemp]
        rw [if_pos trivial]
      · rw [if_neg hret]
        have hemp : (ucsG g ((start :: order).getLast (by simp)) start).1.isEmpty = false := by
          cases hu : (ucsG g ((start :: order).getLast (by simp)) start).1 with
          | nil => exact absurd hu hret
          | cons a b => rfl
        simp only [hemp]
        rw [if_neg Bool.false_ne_true]
        rw [List.nil_append, List.flatMap_append, List.flatMap_cons, List.flatMap_nil,
          List.append_nil, List.foldl_append, List.foldl_cons, List.foldl_nil]

theorem foldl_oAdd_some :
    ∀ (segs : List (List Cell × OCost)) (c0 : ℚ),
      (∀ s ∈ segs, ∃ c, s.2 = some c) →
      ∃ c, segs.foldl (fun a s => oAdd a s.2) (some c0) = some c := by
  intro segs
  induction segs with
  | nil => intro c0 _; exact ⟨c0, rfl⟩
  | cons s segs ih =>
    intro c0 h
    obtain ⟨c, hc⟩ := h s (List.mem_cons_self _ _)
    rw [List.foldl_cons, hc]
    exact ih (c0 + c) fun x hx => h x (List.mem_cons_of_mem _ hx)

theorem orderOutcome_cost_some {g : List (List String)} {start : Cell} {ro : Bool}
    {order : List Cell} {r : List Cell × OCost}
    (h : orderOutcome g start ro order = some r) : ∃ c, r.2 = some c := by
  unfold orderOutcome at h
  by_cases hany : (((segmentPairs start ro order).map fun pr => ucsG g pr.1 pr.2).any
      fun s => s.1.isEmpty) = true
  · rw [if_pos hany] at h
    exact absurd h (by simp)
  · rw [if_neg hany] at h
    injection h with h
    subst h
    dsimp only
    apply foldl_oAdd_some
    intro s hs
    rw [Bool.not_eq_true] at hany
    rw [List.any_eq_false] at hany
    have hsne := hany s hs
    rw [List.mem_map] at hs
    obtain ⟨pr, -, hpr⟩ := hs
    subst hpr
    apply ucsG_nonempty_cost
    intro hempty
    rw [hempty] at hsne
    exact hsne rfl

theorem find_bridge (valids : List (List Cell × OCost))
    (hsome : ∀ r ∈ valids, r.2 ≠ none) :
    ((((([], none) : List Cell × OCost) :: valids).find?
        (fun r => (((([], none) : List Cell × OCost)) :: valids).all
          fun r2 => !(oLT r2.2 r.2))).getD ([], none)).1 =
      match valids.find? (fun r => valids.all fun r2 => !(oLT r2.2 r.2)) with
      | some r => r.1
      | none => [] := by
  cases valids with
  | nil =>
    rw [List.find?_cons_of_pos _ (by simp [oLT_none_left])]
    rfl
  | cons v vs =>
    have hv2 : ∃ c, v.2 = some c := by
      cases hv : v.2 with
      | none => exact absurd hv (hsome v (List.mem_cons_self _ _))
      | some c => exact ⟨c, rfl⟩
    obtain ⟨c, hc⟩ := hv2
    have hfail : (((([], none) : List Cell × OCost) :: v :: vs).all
        fun r2 => !(oLT r2.2 (none : OCost))) = false := by
      rw [List.all_eq_false]
      refine ⟨v, List.mem_cons_of_mem _ (List.mem_cons_self _ _), ?_⟩
      rw [hc]
      simp [oLT]
    have hstep : (((([], none) : List Cell × OCost) :: v :: vs).find?
        (fun r => (((([], none) : List Cell × OCost)) :: v :: vs).all
          fun r2 => !(oLT r2.2 r.2))) =
        ((v :: vs).find? (fun r => (((([], none) : List Cell × OCost)) :: v :: vs).all
          fun r2 => !(oLT r2.2 r.2))) := by
      apply List.find?_cons_of_neg
      simp only [hfail]
      simp
    rw [hstep]
    have hcongr : ((v :: vs).find? (fun r => (((([], none) : List Cell × OCost)) :: v :: vs).all
        fun r2 => !(oLT r2.2 r.2))) =
        ((v :: vs).find? (fun r => (v :: vs).all fun r2 => !(oLT r2.2 r.2))) := by
      apply find?_congr
      intro x _
      rw [List.all_cons]
      rw [oLT_none_left]
      rfl
    rw [hcongr]
    cases hf : ((v :: vs).find? fun r => (v :: vs).all fun r2 => !(oLT r2.2 r.2)) with
    | none => rfl
    | some y => rfl

theorem fbtp_eq_spec (g : List (List String)) (s : Cell) (ts : List Cell) (ro : Bool) :
    find_best_treasure_pathG g s ts ro = planRouteSpec g s ts ro := by
  by_cases hts : ts = []
  · subst hts
    have hL : find_best_treasure_pathG g s [] ro = [] := by
      unfold find_best_treasure_pathG
      rw [if_pos rfl]
    rw [hL]
    unfold planRouteSpec
    have hperm : permutations ([] : List Cell) = [[]] := by rw [permutations]
    rw [hperm]
    cases ro with
    | false => rfl
    | true =>
      have ho : orderOutcome g s true [] = none := by
        unfold orderOutcome segmentPairs
        simp [ucsG_self]
      rw [List.filterMap_cons, ho, List.filterMap_nil]
      rfl
  · unfold find_best_treasure_pathG
    rw [if_neg hts]
    have hext : (permutations ts).foldl
        (fun best order => match runOrder g s ro order with
          | none => best
          | some (total_path, total_cost) =>
            if oLT total_cost best.2 then (total_path, total_cost) else best)
        ([], none) =
        (permutations ts).foldl
        (fun best r => (orderOutcome g s ro r).elim best
          (fun b => if oLT b.2 best.2 then b else best))
        ([], none) := by
      apply List.foldl_ext
      intro acc order _
      rw [runOrder_eq]
      cases orderOutcome g s ro order with
      | none => rfl
      | some r => rcases r with ⟨tp, tc⟩; rfl
    rw [hext]
    rw [foldl_elim_filterMap (orderOutcome g s ro)
      (fun best b => if oLT b.2 best.2 then b else best)]
    rw [pickBest_eq_find]
    rw [find_bridge _ (fun r hr => by
      rw [List.mem_filterMap] at hr
      obtain ⟨order, -, ho⟩ := hr
      obtain ⟨c, hc⟩ := orderOutcome_cost_some ho
      rw [hc]
      exact Option.noConfusion)]
    unfold planRouteSpec
    rfl

/- ------------------------ cell universe and counting ------------------------ -/

theorem mem_inBFinset {g : List (List String)} {x : Cell} :
    x ∈ inBFinset g ↔ InB g x := by
  rcases x with ⟨x1, x2⟩
  simp only [inBFinset, Finset.mem_image, Finset.mem_product, Finset.mem_range,
    Prod.exists, Prod.mk.injEq]
  unfold InB rowsI colsI
  dsimp only
  constructor
  · rintro ⟨a, b, ⟨ha, hb⟩, h1, h2⟩
    subst h1
    subst h2
    refine ⟨?_, ?_, ?_, ?_⟩ <;> omega
  · rintro ⟨h1, h2, h3, h4⟩
    exact ⟨x1.toNat, x2.toNat, ⟨by omega, by omega⟩, by omega, by omega⟩

theorem card_cellsU_le (g : List (List String)) (start : Cell) :
    (cellsU g start).card ≤ g.length * (g.headD []).length + 1 := by
  unfold cellsU inBFinset
  calc (insert start (((Finset.range g.length) ×ˢ
          (Finset.range (g.headD []).length)).image
          (fun q => ((q.1 : Int), (q.2 : Int))))).card
      ≤ (((Finset.range g.length) ×ˢ (Finset.range (g.headD []).length)).image
          (fun q => ((q.1 : Int), (q.2 : Int)))).card + 1 := Finset.card_insert_le _ _
    _ ≤ ((Finset.range g.length) ×ˢ (Finset.range (g.headD []).length)).card + 1 := by
        have h2 : (((Finset.range g.length) ×ˢ (Finset.range (g.headD []).length)).image
            (fun q => ((q.1 : Int), (q.2 : Int)))).card ≤
            ((Finset.range g.length) ×ˢ (Finset.range (g.headD []).length)).card :=
          Finset.card_image_le
        omega
    _ = g.length * (g.headD []).length + 1 := by
        rw [Finset.card_product, Finset.card_range, Finset.card_range]

/- ------------------------ filter length lemmas ------------------------ -/

theorem length_filter_mono {α : Type} (p q : α → Bool)
    (himp : ∀ x, p x = true → q x = true) :
    ∀ (l : List α), (l.filter p).length ≤ (l.filter q).length := by
  intro l
  induction l with
  | nil => exact le_refl _
  | cons a l ih =>
    rw [List.filter_cons, List.filter_cons]
    cases hp : p a with
    | true =>
      rw [himp a hp]
      simpa using ih
    | false =>
      cases hq : q a with
      | true =>
        have h := ih
        simp
        omega
      | false => simpa using ih

theorem length_filter_lt_strict {α : Type} (p q : α → Bool)
    (himp : ∀ x, p x = true → q x = true) :
    ∀ (l : List α) (x : α), x ∈ l → q x = true → p x = false →
      (l.filter p).length < (l.filter q).length := by
  intro l
  induction l with
  | nil => intro x hx; exact absurd hx (List.not_mem_nil x)
  | cons a l ih =>
    intro x hx hq hp
    rw [List.filter_cons, List.filter_cons]
    rcases List.mem_cons.mp hx with rfl | hx'
    · rw [hq, hp]
      have h := length_filter_mono p q himp l
      simp
      omega
    · cases hpa : p a with
      | true =>
        rw [himp a hpa]
        have h := ih x hx' hq hp
        simp
        omega
      | false =>
        cases hqa : q a with
        | true =>
          have h := ih x hx' hq hp
          simp
          omega
        | false =>
          have h := ih x hx' hq hp
          simpa using h

theorem length_filter_lt_of_mem {α : Type} {p : α → Bool} :
    ∀ {l : List α} {x : α}, x ∈ l → p x = false → (l.filter p).length < l.length := by
  intro l
  induction l with
  | nil => intro x hx; exact absurd hx (List.not_mem_nil x)
  | cons a l ih =>
    intro x hx hp
    rw [List.filter_cons]
    rcases List.mem_cons.mp hx with rfl | hx'
    · rw [hp]
      have h := List.length_filter_le p l
      simp
      omega
    · cases hpa : p a with
      | true =>
        have h := ih hx' hp
        simp
        omega
      | false =>
        have h := ih hx' hp
        simp
        omega

/- ------------------------ pushState projections ------------------------ -/

theorem pushState_open (g : List (List String)) (cc : ℚ) (cur : Cell)
    (st : UState) (nb : Cell) :
    (pushState g cc cur st nb).open_set = (cc + stepW g nb, nb) :: st.open_set := rfl

theorem pushState_cf (g : List (List String)) (cc : ℚ) (cur : Cell)
    (st : UState) (nb : Cell) :
    (pushState g cc cur st nb).came_from = (nb, cur) :: st.came_from := rfl

theorem pushState_csf (g : List (List String)) (cc : ℚ) (cur : Cell)
    (st : UState) (nb : Cell) :
    (pushState g cc cur st nb).cost_so_far = (nb, cc + stepW g nb) :: st.cost_so_far := rfl

/- ------------------------ the frontier argument ------------------------ -/

theorem frontier_aux {g : List (List String)} {start goal : Cell} {st : UState}
    {popped : Finset Cell} (inv : UcsInv g start goal st popped) (k : ℚ)
    (hmin : ∀ e ∈ st.open_set, k ≤ e.1) :
    ∀ {u z : Cell} {p : List Cell}, Walk g u z p → u ∈ popped → z ∉ popped →
      ∀ du, lookupC st.cost_so_far u = some du → k ≤ du + walkCost g p := by
  intro u z p hw
  induction hw with
  | nil v => intro hu hz; exact absurd hu hz
  | cons hv hw ih =>
    intro hu hz du hdu
    rename_i u' v' w' p'
    obtain ⟨du', hdu', hrel⟩ := inv.relaxed u' hu
    have hdueq : du' = du := by
      rw [hdu] at hdu'
      injection hdu' with h
      exact h.symm
    subst hdueq
    obtain ⟨dv, hdv, hle⟩ := hrel v' hv
    by_cases hvp : v' ∈ popped
    · have hrec := ih hvp hz dv hdv
      rw [walkCost_cons]
      linarith
    · rcases inv.present v' dv hdv with h | h
      · exact absurd h hvp
      · have hk := hmin _ h
        rw [walkCost_cons]
        have hc := walkCost_nonneg g p'
        linarith

theorem frontier_walk {g : List (List String)} {start goal : Cell} {st : UState}
    {popped : Finset Cell} (inv : UcsInv g start goal st popped) (k : ℚ)
    (hmin : ∀ e ∈ st.open_set, k ≤ e.1) :
    ∀ (z : Cell) (p : List Cell), Walk g start z p → z ∉ popped →
      k ≤ walkCost g p := by
  intro z p hw hz
  rcases inv.startState with hs | ⟨-, hst⟩
  · have h := frontier_aux inv k hmin hw hs hz 0 inv.dStart
    linarith
  · subst hst
    have hmem : ((0 : ℚ), start) ∈
        (⟨[(0, start)], [], [(start, 0)]⟩ : UState).open_set := by
      exact List.mem_singleton.mpr rfl
    have hk := hmin _ hmem
    have hc := walkCost_nonneg g p
    simp only at hk
    linarith

theorem open_ne_nil_aux {g : List (List String)} {start goal : Cell} {st : UState}
    {popped : Finset Cell} (inv : UcsInv g start goal st popped) :
    ∀ {u z : Cell} {p : List Cell}, Walk g u z p → u ∈ popped → z ∉ popped →
      st.open_set ≠ [] := by
  intro u z p hw
  induction hw with
  | nil v => intro hu hz; exact absurd hu hz
  | cons hv hw ih =>
    intro hu hz
    rename_i u' v' w' p'
    by_cases hvp : v' ∈ popped
    · exact ih hvp hz
    · obtain ⟨du, hdu, hrel⟩ := inv.relaxed u' hu
      obtain ⟨dv, hdv, -⟩ := hrel v' hv
      rcases inv.present v' dv hdv with h | h
      · exact absurd h hvp
      · exact List.ne_nil_of_mem h

theorem open_ne_nil {g : List (List String)} {start goal : Cell} {st : UState}
    {popped : Finset Cell} (inv : UcsInv g start goal st popped)
    (hreach : ∃ p, Walk g start goal p) : st.open_set ≠ [] := by
  obtain ⟨p, hw⟩ := hreach
  rcases hinit : inv.startState with hs | ⟨-, hst⟩
  · exact open_ne_nil_aux inv hw hs inv.goalNotPopped
  · rw [hst]
    simp

/- ------------------------ predecessor chains ------------------------ -/

theorem chain_exists {g : List (List String)} {start goal : Cell} {st : UState}
    {popped : Finset Cell} (inv : UcsInv g start goal st popped) :
    ∀ (n : Nat) (v : Cell) (dv : ℚ), lookupC st.cost_so_far v = some dv →
      (st.cost_so_far.filter fun e => decide (e.2 < dv)).length ≤ n →
      ∃ p, ChainTo st.came_from v p ∧ Walk g start v p ∧ walkCost g p = dv ∧
        p.length ≤ (st.cost_so_far.filter fun e => decide (e.2 < dv)).length := by
  intro n
  induction n with
  | zero =>
    intro v dv hdv hn
    cases hcf : lookupC st.came_from v with
    | none =>
      have hv : v = start := inv.cfNone v dv hdv hcf
      subst hv
      have hdv0 : dv = 0 := by
        rw [inv.dStart] at hdv
        injection hdv with h
        exact h.symm
      subst hdv0
      exact ⟨[], ChainTo.stop hcf, Walk.nil _, walkCost_nil g, by simp⟩
    | some u =>
      exfalso
      obtain ⟨hu, hnb, du, hdu, hlink⟩ := inv.cfLink v u hcf
      have hdveq : dv = du + stepW g v := by
        rw [hdv] at hlink
        exact Option.some.inj hlink
      have hlt : du < dv := by
        have := stepW_pos g v
        linarith
      have hstrict := length_filter_lt_strict
        (fun e => decide (e.2 < du)) (fun e => decide (e.2 < dv))
        (fun x hx => by
          simp only [decide_eq_true_eq] at hx ⊢
          linarith)
        st.cost_so_far (u, du) (lookupC_mem hdu)
        (by simp only [decide_eq_true_eq]; exact hlt)
        (by simp)
      omega
  | succ n ih =>
    intro v dv hdv hn
    cases hcf : lookupC st.came_from v with
    | none =>
      have hv : v = start := inv.cfNone v dv hdv hcf
      subst hv
      have hdv0 : dv = 0 := by
        rw [inv.dStart] at hdv
        injection hdv with h
        exact h.symm
      subst hdv0
      exact ⟨[], ChainTo.stop hcf, Walk.nil _, walkCost_nil g, by simp⟩
    | some u =>
      obtain ⟨hu, hnb, du, hdu, hlink⟩ := inv.cfLink v u hcf
      have hdveq : dv = du + stepW g v := by
        rw [hdv] at hlink
        exact Option.some.inj hlink
      have hlt : du < dv := by
        have := stepW_pos g v
        linarith
      have hstrict := length_filter_lt_strict
        (fun e => decide (e.2 < du)) (fun e => decide (e.2 < dv))
        (fun x hx => by
          simp only [decide_eq_true_eq] at hx ⊢
          linarith)
        st.cost_so_far (u, du) (lookupC_mem hdu)
        (by simp only [decide_eq_true_eq]; exact hlt)
        (by simp)
      obtain ⟨p, hchain, hwalk, hcost, hlen⟩ := ih u du hdu (by omega)
      refine ⟨p ++ [v], ChainTo.step hcf hchain, walk_snoc hwalk hnb, ?_, ?_⟩
      · rw [walkCost_append, hcost]
        have : walkCost g [v] = stepW g v := by simp [walkCost]
        rw [this, hdveq]
      · rw [List.length_append]
        simp only [List.length_singleton]
        omega

theorem reconstruct_chain : ∀ {cf : List (Cell × Cell)} {v : Cell} {p : List Cell},
    ChainTo cf v p → ∀ (fuel : Nat) (a : List Cell), p.length < fuel →
      reconstruct fuel cf v a = p ++ a.reverse := by
  intro cf v p hc
  induction hc with
  | stop h =>
    intro fuel a hf
    cases fuel with
    | zero => omega
    | succ m =>
      rw [reconstruct, h]
      simp
  | step h hc ih =>
    intro fuel a hf
    rename_i v' u' p'
    cases fuel with
    | zero => simp at hf
    | succ m =>
      rw [reconstruct, h]
      dsimp only
      rw [ih m (a ++ [v']) (by simp at hf ⊢; omega)]
      rw [List.reverse_append]
      simp [List.append_assoc]

/- ------------------------ the goal-pop return is correct ------------------------ -/

theorem goal_pop_correct {g : List (List String)} {start goal : Cell} {st : UState}
    {popped : Finset Cell} (inv : UcsInv g start goal st popped)
    {k : ℚ} {rest : List (ℚ × Cell)}
    (hpop : popMin st.open_set = some ((k, goal), rest)) :
    ∃ p c, (reconstruct (st.came_from.length + 1) st.came_from goal [],
        lookupC st.cost_so_far goal) = (p, some c) ∧
      Walk g start goal p ∧ walkCost g p = c ∧
      ∀ q, Walk g start goal q → c ≤ walkCost g q := by
  have hmem : (k, goal) ∈ st.open_set :=
    (popMin_perm hpop).mem_iff.mpr (List.mem_cons_self _ _)
  obtain ⟨dg, hdg, hdgk⟩ := inv.heapSound _ hmem
  have hgoalmem : (dg, goal) ∈ st.open_set := by
    rcases inv.present goal dg hdg with h | h
    · exact absurd h inv.goalNotPopped
    · exact h
  have hk_le : k ≤ dg := not_tupLt_fst_le (popMin_min hpop _ hgoalmem)
  have hdgeq : dg = k := le_antisymm hdgk hk_le
  have hmin : ∀ e ∈ st.open_set, k ≤ e.1 :=
    fun e he => not_tupLt_fst_le (popMin_min hpop e he)
  obtain ⟨p, hchain, hwalk, hcost, hlen⟩ := chain_exists inv
    (st.cost_so_far.filter fun e => decide (e.2 < dg)).length goal dg hdg (le_refl _)
  have hflt : (st.cost_so_far.filter fun e => decide (e.2 < dg)).length <
      st.cost_so_far.length :=
    length_filter_lt_of_mem (lookupC_mem hdg) (by simp)
  have hplen : p.length < st.came_from.length + 1 := by
    have := inv.lenEq
    omega
  refine ⟨p, dg, ?_, hwalk, hcost, ?_⟩
  · rw [reconstruct_chain hchain _ [] hplen]
    simp [hdg]
  · intro q hq
    rw [hdgeq]
    exact frontier_walk inv k hmin goal q hq inv.goalNotPopped

/- ------------------------ one relaxation preserves the fold invariant ------------------------ -/

theorem lookup_push_csf (g : List (List String)) (k : ℚ) (cur : Cell)
    (st : UState) (nb v : Cell) :
    lookupC (pushState g k cur st nb).cost_so_far v =
      if v = nb then some (k + stepW g nb) else lookupC st.cost_so_far v := by
  rw [pushState_csf, lookupC_cons]

theorem lookup_push_cf (g : List (List String)) (k : ℚ) (cur : Cell)
    (st : UState) (nb v : Cell) :
    lookupC (pushState g k cur st nb).came_from v =
      if v = nb then some cur else lookupC st.came_from v := by
  rw [pushState_cf, lookupC_cons]

theorem foldInv_push {g : List (List String)} {start cur : Cell} {k : ℚ}
    {popped : Finset Cell} {done : List Cell} {st : UState}
    (inv : FoldInv g start cur k popped done st) (hk0 : 0 ≤ k)
    {nb : Cell} (hnb : nb ∈ get_neighborsG g cur.1 cur.2)
    (hcond : lookupC st.cost_so_far nb = none ∨
      ∃ c, lookupC st.cost_so_far nb = some c ∧ k + stepW g nb < c) :
    FoldInv g start cur k popped (done ++ [nb]) (pushState g k cur st nb) := by
  have hw := stepW_pos g nb
  -- the pushed cell carries no settled record
  have hnbP : nb ∉ insert cur popped := by
    intro hmem
    have hsome : ∃ c, lookupC st.cost_so_far nb = some c := by
      rcases Finset.mem_insert.mp hmem with rfl | hpop
      · exact ⟨k, inv.dCur⟩
      · obtain ⟨du, hdu, -⟩ := inv.relaxedOld nb hpop
        exact ⟨du, hdu⟩
    obtain ⟨c, hc⟩ := hsome
    have hck := inv.leK nb hmem c hc
    rcases hcond with hnone | ⟨c2, hc2, hlt⟩
    · rw [hc] at hnone
      exact Option.noConfusion hnone
    · rw [hc] at hc2
      have : c = c2 := Option.some.inj hc2
      subst this
      linarith
  have hnbStart : nb ≠ start := by
    intro hmem
    subst hmem
    rcases hcond with hnone | ⟨c2, hc2, hlt⟩
    · rw [inv.dStart] at hnone
      exact Option.noConfusion hnone
    · rw [inv.dStart] at hc2
      have : (0 : ℚ) = c2 := Option.some.inj hc2
      subst this
      linarith
  have hnbCur : nb ≠ cur := by
    intro hmem
    exact hnbP (hmem ▸ Finset.mem_insert_self cur popped)
  refine ⟨?_, ?_, ?_, ?_, ?_, ?_, ?_, ?_, ?_, ?_, ?_, ?_, ?_, ?_⟩
  · -- keysNonneg
    intro e he
    rw [pushState_open] at he
    rcases List.mem_cons.mp he with rfl | he'
    · dsimp only
      linarith
    · exact inv.keysNonneg e he'
  · -- openCells
    intro e he
    rw [pushState_open] at he
    rcases List.mem_cons.mp he with rfl | he'
    · exact Or.inr (get_neighborsG_inb hnb).1
    · exact inv.openCells e he'
  · -- minK
    intro e he
    rw [pushState_open] at he
    rcases List.mem_cons.mp he with rfl | he'
    · dsimp only
      linarith
    · exact inv.minK e he'
  · -- dStart
    rw [lookup_push_csf, if_neg hnbStart.symm]
    exact inv.dStart
  · -- dCur
    rw [lookup_push_csf, if_neg hnbCur.symm]
    exact inv.dCur
  · -- leK
    intro u hu du hdu
    have hune : u ≠ nb := fun h => hnbP (h ▸ hu)
    rw [lookup_push_csf, if_neg hune] at hdu
    exact inv.leK u hu du hdu
  · -- cfLink
    intro v u hvu
    rw [lookup_push_cf] at hvu
    by_cases hv : v = nb
    · rw [if_pos hv] at hvu
      have hucur : u = cur := (Option.some.inj hvu).symm
      subst hucur
      subst hv
      refine ⟨Finset.mem_insert_self _ _, hnb, k, ?_, ?_⟩
      · rw [lookup_push_csf, if_neg hnbCur.symm]
        exact inv.dCur
      · rw [lookup_push_csf, if_pos rfl]
    · rw [if_neg hv] at hvu
      obtain ⟨hu, hvnb, du, hdu, hlk⟩ := inv.cfLink v u hvu
      have hune : u ≠ nb := fun h => hnbP (h ▸ hu)
      refine ⟨hu, hvnb, du, ?_, ?_⟩
      · rw [lookup_push_csf, if_neg hune]
        exact hdu
      · rw [lookup_push_csf, if_neg hv]
        exact hlk
  · -- cfNone
    intro v d hvd hvcf
    by_cases hv : v = nb
    · rw [lookup_push_cf, if_pos hv] at hvcf
      exact Option.noConfusion hvcf
    · rw [lookup_push_csf, if_neg hv] at hvd
      rw [lookup_push_cf, if_neg hv] at hvcf
      exact inv.cfNone v d hvd hvcf
  · -- lenEq
    rw [pushState_csf, pushState_cf]
    simp only [List.length_cons]
    rw [inv.lenEq]
  · -- relaxedOld
    intro u hu
    have hune : u ≠ nb := by
      intro h
      exact hnbP (h ▸ Finset.mem_insert_of_mem hu)
    obtain ⟨du, hdu, hrel⟩ := inv.relaxedOld u hu
    refine ⟨du, ?_, ?_⟩
    · rw [lookup_push_csf, if_neg hune]
      exact hdu
    · intro nb2 hnb2
      obtain ⟨dnb2, hd2, hle2⟩ := hrel nb2 hnb2
      by_cases h2 : nb2 = nb
      · subst h2
        rcases hcond with hnone | ⟨c, hc, hlt⟩
        · rw [hd2] at hnone
          exact Option.noConfusion hnone
        · rw [hd2] at hc
          have hceq : dnb2 = c := Option.some.inj hc
          subst hceq
          refine ⟨k + stepW g nb2, ?_, ?_⟩
          · rw [lookup_push_csf, if_pos rfl]
          · linarith
      · refine ⟨dnb2, ?_, hle2⟩
        rw [lookup_push_csf, if_neg h2]
        exact hd2
  · -- relaxedCur
    intro x hx
    rcases List.mem_append.mp hx with hx' | hx'
    · obtain ⟨dx, hdx, hlex⟩ := inv.relaxedCur x hx'
      by_cases h2 : x = nb
      · subst h2
        refine ⟨k + stepW g x, ?_, le_refl _⟩
        rw [lookup_push_csf, if_pos rfl]
      · refine ⟨dx, ?_, hlex⟩
        rw [lookup_push_csf, if_neg h2]
        exact hdx
    · rcases List.mem_singleton.mp hx' with rfl
      refine ⟨k + stepW g x, ?_, le_refl _⟩
      rw [lookup_push_csf, if_pos rfl]
  · -- heapSound
    intro e he
    rw [pushState_open] at he
    rcases List.mem_cons.mp he with rfl | he'
    · refine ⟨k + stepW g nb, ?_, le_refl _⟩
      rw [lookup_push_csf, if_pos rfl]
    · obtain ⟨d, hd, hde⟩ := inv.heapSound e he'
      by_cases h2 : e.2 = nb
      · rcases hcond with hnone | ⟨c, hc, hlt⟩
        · rw [h2, hnone] at hd
          exact Option.noConfusion hd
        · rw [h2, hc] at hd
          have hceq : c = d := Option.some.inj hd
          subst hceq
          refine ⟨k + stepW g nb, ?_, by linarith⟩
          rw [lookup_push_csf, if_pos h2]
      · refine ⟨d, ?_, hde⟩
        rw [lookup_push_csf, if_neg h2]
        exact hd
  · -- present
    intro v d hvd
    rw [lookup_push_csf] at hvd
    by_cases hv : v = nb
    · rw [if_pos hv] at hvd
      have hdeq : k + stepW g nb = d := Option.some.inj hvd
      right
      rw [pushState_open, hv, ← hdeq]
      exact List.mem_cons_self _ _
    · rw [if_neg hv] at hvd
      rcases inv.present v d hvd with h | h
      · exact Or.inl h
      · right
        rw [pushState_open]
        exact List.mem_cons_of_mem _ h
  · -- finalized
    intro u hu du hdu p hp
    have hune : u ≠ nb := fun h => hnbP (h ▸ hu)
    rw [lookup_push_csf, if_neg hune] at hdu
    exact inv.finalized u hu du hdu p hp

theorem foldInv_step {g : List (List String)} {start cur : Cell} {k : ℚ}
    {popped : Finset Cell} {done : List Cell} {st : UState}
    (inv : FoldInv g start cur k popped done st) (hk0 : 0 ≤ k)
    {nb : Cell} (hnb : nb ∈ get_neighborsG g cur.1 cur.2) :
    FoldInv g start cur k popped (done ++ [nb]) (relax g k cur st nb) ∧
    (relax g k cur st nb).open_set.length ≤ st.open_set.length + 1 := by
  cases hl : lookupC st.cost_so_far nb with
  | none =>
    rw [relax_eq_push_none hl]
    refine ⟨foldInv_push inv hk0 hnb (Or.inl hl), ?_⟩
    rw [pushState_open]
    simp
  | some c =>
    by_cases hlt : k + stepW g nb < c
    · rw [relax_eq_push_lt hl hlt]
      refine ⟨foldInv_push inv hk0 hnb (Or.inr ⟨c, hl, hlt⟩), ?_⟩
      rw [pushState_open]
      simp
    · rw [relax_eq_skip hl hlt]
      refine ⟨?_, by omega⟩
      refine ⟨inv.keysNonneg, inv.openCells, inv.minK, inv.dStart, inv.dCur, inv.leK,
        inv.cfLink, inv.cfNone, inv.lenEq, inv.relaxedOld, ?_, inv.heapSound,
        inv.present, inv.finalized⟩
      intro x hx
      rcases List.mem_append.mp hx with hx' | hx'
      · exact inv.relaxedCur x hx'
      · rcases List.mem_singleton.mp hx' with rfl
        exact ⟨c, hl, le_of_not_lt hlt⟩

/- ------------------------ running the whole relaxation fold ------------------------ -/

theorem foldInv_run {g : List (List String)} {start cur : Cell} {k : ℚ}
    {popped : Finset Cell} (hk0 : 0 ≤ k) :
    ∀ (todo done : List Cell) (st : UState),
      FoldInv g start cur k popped done st →
      (∀ nb ∈ todo, nb ∈ get_neighborsG g cur.1 cur.2) →
      FoldInv g start cur k popped (done ++ todo) (todo.foldl (relax g k cur) st) ∧
      (todo.foldl (relax g k cur) st).open_set.length ≤
        st.open_set.length + todo.length := by
  intro todo
  induction todo with
  | nil =>
    intro done st hinv _
    rw [List.foldl_nil, List.append_nil]
    exact ⟨hinv, by simp⟩
  | cons nb todo ih =>
    intro done st hinv hmem
    rw [List.foldl_cons]
    obtain ⟨h1, h2⟩ := foldInv_step hinv hk0 (hmem nb (List.mem_cons_self _ _))
    obtain ⟨h3, h4⟩ := ih (done ++ [nb]) _ h1
      (fun x hx => hmem x (List.mem_cons_of_mem _ hx))
    constructor
    · rw [show done ++ nb :: todo = (done ++ [nb]) ++ todo by simp]
      exact h3
    · simp only [List.length_cons]
      omega

theorem foldl_fixed {α β : Type} (f : β → α → β) (st : β) :
    ∀ (l : List α), (∀ x ∈ l, f st x = st) → l.foldl f st = st := by
  intro l
  induction l with
  | nil => intro _; rfl
  | cons x l ih =>
    intro h
    rw [List.foldl_cons, h x (List.mem_cons_self _ _)]
    exact ih fun y hy => h y (List.mem_cons_of_mem _ hy)

/- ------------------------ entering and leaving the fold ------------------------ -/

theorem foldInv_of_ucsInv {g : List (List String)} {start goal : Cell} {st : UState}
    {popped : Finset Cell} {k : ℚ} {cur : Cell} {rest : List (ℚ × Cell)}
    (inv : UcsInv g start goal st popped)
    (hpop : popMin st.open_set = some ((k, cur), rest))
    (hcurP : cur ∉ popped) :
    FoldInv g start cur k popped [] ⟨rest, st.came_from, st.cost_so_far⟩ ∧ 0 ≤ k := by
  have hmem : (k, cur) ∈ st.open_set :=
    (popMin_perm hpop).mem_iff.mpr (List.mem_cons_self _ _)
  have hk0 : 0 ≤ k := inv.keysNonneg _ hmem
  obtain ⟨d, hd, hdk⟩ := inv.heapSound _ hmem
  have hdmem : (d, cur) ∈ st.open_set := by
    rcases inv.present cur d hd with h | h
    · exact absurd h hcurP
    · exact h
  have hkd : k ≤ d := not_tupLt_fst_le (popMin_min hpop _ hdmem)
  have hdk2 : d = k := le_antisymm hdk hkd
  subst hdk2
  have hrestsub : ∀ e ∈ rest, e ∈ st.open_set :=
    fun e he => (popMin_perm hpop).mem_iff.mpr (List.mem_cons_of_mem _ he)
  have hmin : ∀ e ∈ st.open_set, d ≤ e.1 :=
    fun e he => not_tupLt_fst_le (popMin_min hpop e he)
  refine ⟨⟨?_, ?_, ?_, inv.dStart, hd, ?_, ?_, inv.cfNone, inv.lenEq, inv.relaxed,
    ?_, ?_, ?_, ?_⟩, hk0⟩
  · exact fun e he => inv.keysNonneg e (hrestsub e he)
  · exact fun e he => inv.openCells e (hrestsub e he)
  · exact fun e he => hmin e (hrestsub e he)
  · -- leK
    intro u hu du hdu
    rcases Finset.mem_insert.mp hu with rfl | hu'
    · rw [hd] at hdu
      rw [Option.some.inj hdu]
    · exact inv.poppedLe u hu' du hdu (d, cur) hmem
  · -- cfLink
    intro v u hvu
    obtain ⟨hu, hv, du, hdu, hlk⟩ := inv.cfLink v u hvu
    exact ⟨Finset.mem_insert_of_mem hu, hv, du, hdu, hlk⟩
  · -- relaxedCur
    intro x hx
    exact absurd hx (List.not_mem_nil x)
  · -- heapSound
    exact fun e he => inv.heapSound e (hrestsub e he)
  · -- present
    intro v dv hdv
    rcases inv.present v dv hdv with h | h
    · exact Or.inl (Finset.mem_insert_of_mem h)
    · rcases List.mem_cons.mp ((popMin_perm hpop).mem_iff.mp h) with heq | hr
      · left
        have : v = cur := congrArg Prod.snd heq
        rw [this]
        exact Finset.mem_insert_self _ _
      · exact Or.inr hr
  · -- finalized
    intro u hu du hdu p hp
    rcases Finset.mem_insert.mp hu with rfl | hu'
    · have hdueq : du = d := by
        rw [hd] at hdu
        exact (Option.some.inj hdu).symm
      rw [hdueq]
      exact frontier_walk inv d hmin u p hp hcurP
    · exact inv.finalized u hu' du hdu p hp

theorem ucsInv_of_foldInv {g : List (List String)} {start goal cur : Cell} {k : ℚ}
    {popped : Finset Cell} {st' : UState}
    (f : FoldInv g start cur k popped (get_neighborsG g cur.1 cur.2) st')
    (hgoal : cur ≠ goal) (hgoalP : goal ∉ popped)
    (hcurCell : cur = start ∨ InB g cur)
    (hpoppedCells : ∀ v ∈ popped, v = start ∨ InB g v)
    (hstartP : start ∈ insert cur popped) :
    UcsInv g start goal st' (insert cur popped) := by
  refine ⟨f.keysNonneg, f.openCells, ?_, f.dStart, f.cfLink, f.cfNone, f.lenEq,
    ?_, ?_, f.heapSound, f.present, f.finalized, ?_, Or.inl hstartP⟩
  · intro v hv
    rcases Finset.mem_insert.mp hv with rfl | h
    · exact hcurCell
    · exact hpoppedCells v h
  · -- relaxed
    intro u hu
    rcases Finset.mem_insert.mp hu with rfl | h
    · exact ⟨k, f.dCur, f.relaxedCur⟩
    · exact f.relaxedOld u h
  · -- poppedLe
    intro u hu du hdu e he
    exact le_trans (f.leK u hu du hdu) (f.minK e he)
  · -- goalNotPopped
    intro hmem
    rcases Finset.mem_insert.mp hmem with h | h
    · exact hgoal h.symm
    · exact hgoalP h

/- ------------------------ stale pops relax nothing ------------------------ -/

theorem fold_noop {g : List (List String)} {start goal : Cell} {st : UState}
    {popped : Finset Cell} {k : ℚ} {cur : Cell} {rest : List (ℚ × Cell)}
    (inv : UcsInv g start goal st popped)
    (hpop : popMin st.open_set = some ((k, cur), rest))
    (hcurP : cur ∈ popped) :
    (get_neighborsG g cur.1 cur.2).foldl (relax g k cur)
      ⟨rest, st.came_from, st.cost_so_far⟩ = ⟨rest, st.came_from, st.cost_so_far⟩ ∧
    UcsInv g start goal ⟨rest, st.came_from, st.cost_so_far⟩ popped := by
  have hmem : (k, cur) ∈ st.open_set :=
    (popMin_perm hpop).mem_iff.mpr (List.mem_cons_self _ _)
  obtain ⟨dc, hdc, hrel⟩ := inv.relaxed cur hcurP
  have hdck : dc ≤ k := inv.poppedLe cur hcurP dc hdc (k, cur) hmem
  have hrestsub : ∀ e ∈ rest, e ∈ st.open_set :=
    fun e he => (popMin_perm hpop).mem_iff.mpr (List.mem_cons_of_mem _ he)
  constructor
  · apply foldl_fixed
    intro nb hnb
    obtain ⟨dnb, hdnb, hle⟩ := hrel nb hnb
    have hw := stepW_pos g nb
    have hdnb2 : lookupC (⟨rest, st.came_from, st.cost_so_far⟩ : UState).cost_so_far nb =
        some dnb := hdnb
    exact relax_eq_skip hdnb2 (not_lt_of_le (by linarith))
  · refine ⟨?_, ?_, inv.poppedCells, inv.dStart, inv.cfLink, inv.cfNone, inv.lenEq,
      inv.relaxed, ?_, ?_, ?_, inv.finalized, inv.goalNotPopped, ?_⟩
    · exact fun e he => inv.keysNonneg e (hrestsub e he)
    · exact fun e he => inv.openCells e (hrestsub e he)
    · exact fun u hu du hdu e he => inv.poppedLe u hu du hdu e (hrestsub e he)
    · exact fun e he => inv.heapSound e (hrestsub e he)
    · intro v dv hdv
      rcases inv.present v dv hdv with h | h
      · exact Or.inl h
      · rcases List.mem_cons.mp ((popMin_perm hpop).mem_iff.mp h) with heq | hr
        · left
          have : v = cur := congrArg Prod.snd heq
          rw [this]
          exact hcurP
        · exact Or.inr hr
    · rcases inv.startState with hs | ⟨hemp, -⟩
      · exact Or.inl hs
      · rw [hemp] at hcurP
        exact absurd hcurP (Finset.not_mem_empty cur)

/- ------------------------ the initial state satisfies the invariant ------------------------ -/

theorem cellsU_of_or {g : List (List String)} {start v : Cell}
    (h : v = start ∨ InB g v) : v ∈ cellsU g start := by
  rcases h with rfl | h
  · exact Finset.mem_insert_self _ _
  · exact Finset.mem_insert_of_mem (mem_inBFinset.mpr h)

theorem ucsInv_init (g : List (List String)) (start goal : Cell) :
    UcsInv g start goal ⟨[((0 : ℚ), start)], [], [(start, (0 : ℚ))]⟩ ∅ := by
  refine ⟨?_, ?_, ?_, ?_, ?_, ?_, rfl, ?_, ?_, ?_, ?_, ?_,
    Finset.not_mem_empty goal, Or.inr ⟨rfl, rfl⟩⟩
  · intro e he
    rw [List.mem_singleton] at he
    subst he
    exact le_refl 0
  · intro e he
    rw [List.mem_singleton] at he
    subst he
    exact Or.inl rfl
  · intro v hv
    exact absurd hv (Finset.not_mem_empty v)
  · rw [lookupC_cons, if_pos rfl]
  · intro v u h
    simp [lookupC] at h
  · intro v d h _
    rw [lookupC_cons] at h
    by_cases hv : v = start
    · exact hv
    · rw [if_neg hv] at h
      simp [lookupC] at h
  · intro u hu
    exact absurd hu (Finset.not_mem_empty u)
  · intro u hu
    exact absurd hu (Finset.not_mem_empty u)
  · intro e he
    rw [List.mem_singleton] at he
    subst he
    exact ⟨0, by rw [lookupC_cons, if_pos rfl], le_refl 0⟩
  · intro v d h
    rw [lookupC_cons] at h
    by_cases hv : v = start
    · rw [if_pos hv] at h
      right
      subst hv
      rw [← Option.some.inj h]
      exact List.mem_singleton.mpr rfl
    · rw [if_neg hv] at h
      simp [lookupC] at h
  · intro u hu
    exact absurd hu (Finset.not_mem_empty u)

/- ------------------------ the main loop theorem ------------------------ -/

theorem ucsLoop_correct {g : List (List String)} {start goal : Cell}
    (hreach : ∃ p, Walk g start goal p) :
    ∀ (fuel : Nat) (st : UState) (popped : Finset Cell),
      UcsInv g start goal st popped →
      uVariant g start st popped ≤ fuel →
      ∃ p c, ucsLoopG g goal fuel st = (p, some c) ∧
        Walk g start goal p ∧ walkCost g p = c ∧
        ∀ q, Walk g start goal q → c ≤ walkCost g q := by
  intro fuel
  induction fuel with
  | zero =>
    intro st popped inv hvar
    exfalso
    have h1 := List.length_pos.mpr (open_ne_nil inv hreach)
    unfold uVariant at hvar
    omega
  | succ fuel ih =>
    intro st popped inv hvar
    cases hpop : popMin st.open_set with
    | none =>
      exact absurd (popMin_eq_none.mp hpop) (open_ne_nil inv hreach)
    | some pr =>
      obtain ⟨⟨k, cur⟩, rest⟩ := pr
      by_cases hcur : cur = goal
      · subst hcur
        obtain ⟨p, c, heq, hwalk, hcost, hmin⟩ := goal_pop_correct inv hpop
        refine ⟨p, c, ?_, hwalk, hcost, hmin⟩
        rw [ucsLoopG, hpop]
        dsimp only
        rw [if_pos rfl]
        exact heq
      · have hlen : st.open_set.length = rest.length + 1 := by
          simpa using (popMin_perm hpop).length_eq
        rw [ucsLoopG, hpop]
        dsimp only
        rw [if_neg hcur]
        by_cases hcurP : cur ∈ popped
        · obtain ⟨hfold, inv2⟩ := fold_noop inv hpop hcurP
          rw [hfold]
          apply ih _ _ inv2
          unfold uVariant at hvar ⊢
          dsimp only
          omega
        · obtain ⟨finv0, hk0⟩ := foldInv_of_ucsInv inv hpop hcurP
          obtain ⟨finv, hlen2⟩ := foldInv_run hk0 (get_neighborsG g cur.1 cur.2) []
            ⟨rest, st.came_from, st.cost_so_far⟩ finv0 (fun nb h => h)
          rw [List.nil_append] at finv
          have hmem : (k, cur) ∈ st.open_set :=
            (popMin_perm hpop).mem_iff.mpr (List.mem_cons_self _ _)
          have hcurCell : cur = start ∨ InB g cur := inv.openCells _ hmem
          have hstartP : start ∈ insert cur popped := by
            rcases inv.startState with hs | ⟨-, hst⟩
            · exact Finset.mem_insert_of_mem hs
            · have hpp : some ((((0 : ℚ), start), ([] : List (ℚ × Cell)))) =
                  some ((k, cur), rest) := by
                rw [hst] at hpop
                exact hpop
              injection hpp with h1
              injection h1 with h2 h3
              injection h2 with h4 h5
              rw [← h5]
              exact Finset.mem_insert_self _ _
          have inv2 := ucsInv_of_foldInv finv hcur inv.goalNotPopped hcurCell
            inv.poppedCells hstartP
          apply ih _ _ inv2
          have hnb := get_neighborsG_length_le g cur.1 cur.2
          have hcardle : (insert cur popped).card ≤ (cellsU g start).card :=
            Finset.card_le_card (by
            intro v hv
            rcases Finset.mem_insert.mp hv with rfl | h
            · exact cellsU_of_or hcurCell
            · exact cellsU_of_or (inv.poppedCells v h))
          have hcardeq : (insert cur popped).card = popped.card + 1 :=
            Finset.card_insert_of_not_mem hcurP
          unfold uVariant at hvar ⊢
          dsimp only at hlen2
          omega

/- ------------------------ ucs is a correct shortest-path search ------------------------ -/

theorem ucsG_correct {g : List (List String)} {start goal : Cell}
    (hreach : ∃ p, Walk g start goal p) :
    ∃ p c, ucsG g start goal = (p, some c) ∧ Walk g start goal p ∧
      walkCost g p = c ∧ ∀ q, Walk g start goal q → c ≤ walkCost g q := by
  have hinv := ucsInv_init g start goal
  have hvar : uVariant g start ⟨[((0 : ℚ), start)], [], [(start, (0 : ℚ))]⟩ ∅ ≤
      fuelG g := by
    have h1 := card_cellsU_le g start
    unfold uVariant fuelG
    simp only [List.length_singleton, Finset.card_empty, Nat.sub_zero]
    omega
  exact ucsLoop_correct hreach (fuelG g) _ ∅ hinv hvar

/- ------------------------ the claimed per-cell cost formula ------------------------ -/

theorem walkCost_tile_formula (g : List (List String)) (p : List Cell) :
    walkCost g p = (p.map fun x =>
      if tileAtG g x.1 x.2 ∈ TRAPS then (2 : ℚ)
      else if tileAtG g x.1 x.2 ∈ REWARDS then 1 / 2 else 1).sum := by
  unfold walkCost
  have hf : stepW g = fun x =>
      if tileAtG g x.1 x.2 ∈ TRAPS then (2 : ℚ)
      else if tileAtG g x.1 x.2 ∈ REWARDS then 1 / 2 else 1 := by
    funext x
    unfold stepW stepCostOf
    dsimp only
    split_ifs <;> norm_num
  rw [hf]

/- ==================== CLAIM THEOREMS ==================== -/

/-- Claim C1: for every start cell and every goal reachable from it (via a
walk whose every entered cell is an in-bounds, non-blocked neighbor of its
predecessor), `ucs start goal` returns a pair `(p, some c)` where `p` is a
walk from start to goal (start excluded, goal included), the returned cost
`c` is the sum over the cells of `p` of the per-cell step cost — 1, doubled
to 2 on a trap tile, halved to 1/2 on a reward tile — and no other walk from
start to goal has strictly lower total cost. -/
theorem claim_C1 (start goal : Cell) (hreach : ∃ p, Walk grid start goal p) :
    ∃ p c, ucs start goal = (p, some c) ∧ Walk grid start goal p ∧
      c = (p.map fun x =>
        if tileAtG grid x.1 x.2 ∈ TRAPS then (2 : ℚ)
        else if tileAtG grid x.1 x.2 ∈ REWARDS then 1 / 2 else 1).sum ∧
      ∀ q, Walk grid start goal q →
        c ≤ (q.map fun x =>
          if tileAtG grid x.1 x.2 ∈ TRAPS then (2 : ℚ)
          else if tileAtG grid x.1 x.2 ∈ REWARDS then 1 / 2 else 1).sum := by
  obtain ⟨p, c, heq, hwalk, hcost, hmin⟩ := @ucsG_correct grid start goal hreach
  refine ⟨p, c, heq, hwalk, ?_, ?_⟩
  · rw [← walkCost_tile_formula, hcost]
  · intro q hq
    rw [← walkCost_tile_formula]
    exact hmin q hq

/-- Witness for C1: the cell (0, 0) is reachable from the start cell (1, 0)
in one step, and ucs finds an optimal path to it. -/
theorem claim_C1_witness :
    (∃ p, Walk grid (1, 0) (0, 0) p) ∧
    (∃ p c, ucs (1, 0) (0, 0) = (p, some c) ∧ Walk grid (1, 0) (0, 0) p ∧
      c = (p.map fun x =>
        if tileAtG grid x.1 x.2 ∈ TRAPS then (2 : ℚ)
        else if tileAtG grid x.1 x.2 ∈ REWARDS then 1 / 2 else 1).sum ∧
      ∀ q, Walk grid (1, 0) (0, 0) q →
        c ≤ (q.map fun x =>
          if tileAtG grid x.1 x.2 ∈ TRAPS then (2 : ℚ)
          else if tileAtG grid x.1 x.2 ∈ REWARDS then 1 / 2 else 1).sum) :=
  ⟨⟨[(0, 0)], Walk.cons (by decide) (Walk.nil _)⟩,
   claim_C1 (1, 0) (0, 0) ⟨[(0, 0)], Walk.cons (by decide) (Walk.nil _)⟩⟩


/-- Claim C2: for every start cell and target list, `find_best_treasure_path`
enumerates every permutation of the targets in `itertools` order, chains ucs
segments (start to first target, target to target, and back to start when
`return_to_start` is set), skips any ordering with an empty segment, sums
segment costs and concatenates segment paths, and returns the concatenation of
the first ordering achieving the minimum total cost (tracked with strict
less-than), or the empty path when no ordering is fully valid — i.e. it equals
the specification function `planRouteSpec` built from exactly those words. -/
theorem claim_C2 (s : Cell) (ts : List Cell) (ro : Bool) :
    find_best_treasure_path s ts ro = planRouteSpec grid s ts ro :=
  fbtp_eq_spec grid s ts ro

/-- Claim C3: adjacency is symmetric — for in-bounds, non-blocked cells `a`
and `b`, `b ∈ get_neighbors a` iff `a ∈ get_neighbors b`, grid edges and the
parity-dependent diagonal rule included. -/
theorem claim_C3 (a b : Cell) (ha : InB grid a) (hb : InB grid b)
    (hta : tileAtG grid a.1 a.2 ≠ BLOCKED) (htb : tileAtG grid b.1 b.2 ≠ BLOCKED) :
    b ∈ get_neighbors a.1 a.2 ↔ a ∈ get_neighbors b.1 b.2 :=
  neighbors_symm grid ha hb hta htb

theorem claim_C3_witness :
    InB grid (1, 1) ∧ InB grid (0, 1) ∧
    tileAtG grid 1 1 ≠ BLOCKED ∧ tileAtG grid 0 1 ≠ BLOCKED ∧
    ((0, 1) ∈ get_neighbors 1 1 ↔ (1, 1) ∈ get_neighbors 0 1) :=
  ⟨by decide, by decide, by decide, by decide,
    claim_C3 (1, 1) (0, 1) (by decide) (by decide) (by decide) (by decide)⟩

/-- Claim C4: for every in-bounds cell, `get_neighbors` returns exactly the
parity-rule candidates (four cardinals plus the two parity-dependent
diagonals) restricted to in-bounds non-blocked cells; in particular it never
returns a blocked or out-of-bounds cell and yields at most six cells. -/
theorem claim_C4 (r c : Int) (h : InB grid (r, c)) :
    get_neighbors r c = (hexCandidates r c).filter
      (fun x => decide (InB grid x ∧ tileAtG grid x.1 x.2 ≠ BLOCKED)) ∧
    (∀ x ∈ get_neighbors r c, InB grid x ∧ tileAtG grid x.1 x.2 ≠ BLOCKED) ∧
    (get_neighbors r c).length ≤ 6 :=
  ⟨get_neighborsG_eq_filter grid r c, fun _ hx => get_neighborsG_inb hx,
    get_neighborsG_length_le grid r c⟩

theorem claim_C4_witness :
    InB grid (1, 1) ∧
    (get_neighbors 1 1 = (hexCandidates 1 1).filter
        (fun x => decide (InB grid x ∧ tileAtG grid x.1 x.2 ≠ BLOCKED)) ∧
      (∀ x ∈ get_neighbors 1 1, InB grid x ∧ tileAtG grid x.1 x.2 ≠ BLOCKED) ∧
      (get_neighbors 1 1).length ≤ 6) :=
  ⟨by decide, claim_C4 1 1 (by decide)⟩

/-- Claim C5 as frozen is false on the code: it demands the sentinel
`([], ∞)` for every blocked goal, but when start = goal the goal is popped
immediately and `ucs` returns `([], 0)` even on a blocked cell — witnessed by
the blocked cell (4, 0). -/
theorem claim_C5_counterexample :
    tileAtG grid 4 0 = BLOCKED ∧ ucs (4, 0) (4, 0) ≠ ([], none) := by
  refine ⟨by decide, ?_⟩
  rw [show ucs (4, 0) (4, 0) = ([], some 0) from ucsG_self grid _]
  simp

/-- Claim C5 (amended): if the goal is blocked and different from the start,
or no walk from start reaches the goal, then `ucs` returns the sentinel
`([], ∞)` — failure is pure data, the (total) function never raises. -/
theorem claim_C5 (start goal : Cell)
    (h : (tileAtG grid goal.1 goal.2 = BLOCKED ∧ goal ≠ start) ∨
      ¬ ∃ p, Walk grid start goal p) :
    ucs start goal = ([], none) := by
  rcases h with ⟨hb, hne⟩ | h
  · exact ucsG_unreachable grid start goal (no_walk_to_blocked hb hne)
  · exact ucsG_unreachable grid start goal h

theorem claim_C5_witness :
    (tileAtG grid 2 8 = BLOCKED ∧ ((2, 8) : Cell) ≠ (1, 0)) ∧
    ucs (1, 0) (2, 8) = ([], none) :=
  ⟨⟨by decide, by decide⟩,
    claim_C5 (1, 0) (2, 8) (Or.inl ⟨by decide, by decide⟩)⟩

/-- Claim C6: for every cell `s`, `ucs s s` returns the empty path with
cost 0. -/
theorem claim_C6 (s : Cell) : ucs s s = ([], some 0) :=
  ucsG_self grid s

/-- Claim C7: for a single-element target list, `find_best_treasure_path`
returns exactly the path component of `ucs`, also in the unreachable case
(both empty). -/
theorem claim_C7 (s t : Cell) : find_best_treasure_path s [t] = (ucs s t).1 :=
  fbtp_singleton grid s t

/-- Claim C8: an empty target list yields the empty path via the early
`if not treasures` return — no search is run and no error is raised. -/
theorem claim_C8 (s : Cell) (ro : Bool) : find_best_treasure_path s [] ro = [] := by
  unfold find_best_treasure_path find_best_treasure_pathG
  rw [if_pos rfl]

/-- Claim C9: a target equal to the position its segment search starts from
makes the ordering invalid: `ucs` answers `([], 0)` for the zero-length
segment, the empty path is indistinguishable from the unreachable sentinel,
so the chain loop discards the ordering; in particular
`find_best_treasure_path s [s]` returns the empty path although the target is
already reached at cost 0. -/
theorem claim_C9 :
    (∀ (s : Cell) (ro : Bool), find_best_treasure_path s [s] ro = []) ∧
    (∀ s : Cell, ucs s s = ([], some 0)) ∧
    (∀ (pos : Cell) (order tp : List Cell) (tc : OCost),
      SelfHit pos order = true → visitAll grid pos order tp tc = none) :=
  ⟨fun s ro => fbtp_self grid s ro, fun s => ucsG_self grid s,
    fun pos order tp tc h => visitAll_selfHit grid order pos tp tc h⟩

theorem claim_C9_witness :
    find_best_treasure_path (1, 0) [(1, 0)] false = [] ∧
    SelfHit (1, 0) [(1, 0), (2, 4)] = true ∧
    visitAll grid (1, 0) [(1, 0), (2, 4)] [] (some 0) = none :=
  ⟨claim_C9.1 (1, 0) false, by decide,
    claim_C9.2.2 (1, 0) [(1, 0), (2, 4)] [] (some 0) (by decide)⟩

/-- Claim C10: on any grid holding no `X3` or `X4` tile, search.py's `ucs`
returns the same (path, cost) pair as map.py's `ucs`; the two step-cost rules
agree except exactly on `X3` and `X4`, where search.py charges 1.0 and map.py
charges 2.0. -/
theorem claim_C10 :
    (∀ (g : List (List String)), "X3" ∉ g.flatten → "X4" ∉ g.flatten →
      ∀ (start goal : Cell), ucsSearch g start goal = ucsG g start goal) ∧
    (∀ t : String, t ≠ "X3" → t ≠ "X4" → stepCostOfSearch t = stepCostOf t) ∧
    stepCostOfSearch "X3" ≠ stepCostOf "X3" ∧
    stepCostOfSearch "X4" ≠ stepCostOf "X4" :=
  ⟨ucsSearch_eq, fun _ h3 h4 => stepCostOf_eq_search h3 h4,
    by refine fun h => ?_
       rw [show stepCostOfSearch "X3" = 1 from rfl] at h
       rw [show stepCostOf "X3" = 1 * 2 from rfl] at h
       norm_num at h,
    by refine fun h => ?_
       rw [show stepCostOfSearch "X4" = 1 from rfl] at h
       rw [show stepCostOf "X4" = 1 * 2 from rfl] at h
       norm_num at h⟩

theorem claim_C10_witness :
    ("X3" ∉ ([["", "T"], ["#", ""]] : List (List String)).flatten ∧
      "X4" ∉ ([["", "T"], ["#", ""]] : List (List String)).flatten) ∧
    ucsSearch [["", "T"], ["#", ""]] (0, 0) (1, 1) =
      ucsG [["", "T"], ["#", ""]] (0, 0) (1, 1) :=
  ⟨⟨by decide, by decide⟩, claim_C10.1 _ (by decide) (by decide) (0, 0) (1, 1)⟩
